import Mathlib

/-!
A verification development for the deferred task-graph execution engine
described in `spec.md` of this repository.  The repository's own source is a
tutorial notebook (`src/01x_lazy.ipynb`) that *uses* a `delayed`-style engine;
the engine itself is not part of the repository, so the data model, builder and
scheduler below are modelled from the spec (each such definition says so in its
doc comment).  The word-count example at the end is translated directly from
the notebook's two word-counting cells.
-/

set_option linter.unusedSectionVars false

namespace LazyEngine

/-- Concrete values flowing through the example graphs of the notebook:
integers, strings (file names), and a data-frame abstracted as its list of
rows (the engine treats wrapped operations and their values as opaque). -/
inductive Val where
  | int (n : Int)
  | str (s : String)
  | rows (rs : List String)
deriving DecidableEq, Inhabited

section Engine

variable {V : Type} [DecidableEq V] [Inhabited V]

/-- Modelled from the spec: `Task Node` inputs, "each either a literal value
or a reference to another Task Node's id" (spec §3, Data Model). -/
inductive Arg (V : Type) where
  | lit (v : V)
  | ref (i : Nat)
deriving DecidableEq

/-- Modelled from the spec: a Task Node is "an operation plus its inputs"
(spec §3).  The operation is identified by a numeric operation identity. -/
structure TaskNode (V : Type) where
  op : Nat
  args : List (Arg V)
deriving DecidableEq

/-- Modelled from the spec: the Graph is arena-style storage of Task Nodes;
a node id is its index in the arena (spec §9, "arena + integer index ids"). -/
abbrev Graph (V : Type) := List (TaskNode V)

/-- The node id referenced by an argument, if any. -/
def argRef : Arg V → Option Nat
  | .lit _ => none
  | .ref j => some j

/-- The dependency ids of a Task Node, in argument order (with multiplicity). -/
def nodeDeps (n : TaskNode V) : List Nat := n.args.filterMap argRef

/-- The node stored at id `i` (a default placeholder out of range). -/
def nodeAt (g : Graph V) (i : Nat) : TaskNode V := g[i]?.getD ⟨0, []⟩

/-- Modelled from the spec: the §3 invariant that "a node can only reference
nodes that already exist", i.e. every dependency id is smaller than the id of
the node holding it. -/
def WfGraph (g : Graph V) : Prop :=
  ∀ i n, g[i]? = some n → ∀ j ∈ nodeDeps n, j < i

/-- Bool check of a node's dependencies against an id bound. -/
def nodeOkb (i : Nat) (n : TaskNode V) : Bool := (nodeDeps n).all fun j => decide (j < i)

/-- Bool check of `WfGraph`, scanning the arena with a running id. -/
def wfbFrom (k : Nat) : Graph V → Bool
  | [] => true
  | n :: rest => nodeOkb k n && wfbFrom (k + 1) rest

/-- Executable well-formedness check for a graph. -/
def wfb (g : Graph V) : Bool := wfbFrom 0 g

/-- Find the id of a structurally identical node already in the arena. -/
def findNode (n : TaskNode V) : Graph V → Option Nat
  | [] => none
  | m :: rest => if m = n then some 0 else (findNode n rest).map (· + 1)

/-- Modelled from the spec: `wrap(operation)` applied to arguments "does NOT
invoke `operation`; instead it constructs a new Task Node" (spec §4.1), and
the deduplication policy: "two Task Nodes with identical `operation` identity
and identical (literal-equal or same-id) `args` MUST collapse to the same node
id".  Returns the (possibly extended) arena and the node id.  Note that the
underlying operation is not even in scope here, so wrapping cannot invoke it. -/
def wrapCall (g : Graph V) (op : Nat) (args : List (Arg V)) : Graph V × Nat :=
  match findNode (⟨op, args⟩ : TaskNode V) g with
  | some i => (g, i)
  | none => (g ++ [(⟨op, args⟩ : TaskNode V)], g.length)

/-- Bool check that every handle argument references an existing node. -/
def boundedArgsb (g : Graph V) (args : List (Arg V)) : Bool :=
  args.all fun a =>
    match a with
    | .lit _ => true
    | .ref j => decide (j < g.length)

/-! ### Eager denotational semantics

The eager meaning of a graph: evaluate the nodes in arena order, each node by
invoking its operation on the eagerly-evaluated arguments.  A failure carries
the id of the originating node (the first failing node reached through the
arguments, in argument order), matching the spec's §7 propagation policy. -/

/-- The failure origin of an eager result, if any. -/
def errOf : Except Nat V → Option Nat
  | .error o => some o
  | .ok _ => none

/-- The value of an eager result, if any. -/
def okOf : Except Nat V → Option V
  | .ok v => some v
  | .error _ => none

/-- Look an id up in a list of eager results. -/
def lookupE (acc : List (Except Nat V)) (j : Nat) : Except Nat V :=
  (acc[j]?).getD (.ok default)

/-- Eagerly evaluate an argument list against the results of earlier nodes:
the first failing reference (in argument order) propagates its origin. -/
def evalArgsE (acc : List (Except Nat V)) : List (Arg V) → Except Nat (List V)
  | [] => .ok []
  | .lit v :: rest =>
    match evalArgsE acc rest with
    | .error o => .error o
    | .ok vs => .ok (v :: vs)
  | .ref j :: rest =>
    match lookupE acc j with
    | .error o => .error o
    | .ok v =>
      match evalArgsE acc rest with
      | .error o => .error o
      | .ok vs => .ok (v :: vs)

/-- Eagerly evaluate one node given the results of all earlier nodes: a failed
dependency propagates its origin; a failing invocation makes this node (id
`acc.length`) the origin. -/
def nodeResult (ops : Nat → List V → Except String V) (acc : List (Except Nat V))
    (n : TaskNode V) : Except Nat V :=
  match evalArgsE acc n.args with
  | .error o => .error o
  | .ok vs =>
    match ops n.op vs with
    | .ok v => .ok v
    | .error _ => .error acc.length

/-- Eager evaluation of a node arena, left to right, accumulating results. -/
def denoteAcc (ops : Nat → List V → Except String V) (acc : List (Except Nat V)) :
    List (TaskNode V) → List (Except Nat V)
  | [] => acc
  | n :: rest => denoteAcc ops (acc ++ [nodeResult ops acc n]) rest

/-- Eager results of every node of a graph, indexed by node id. -/
def denotes (ops : Nat → List V → Except String V) (g : Graph V) : List (Except Nat V) :=
  denoteAcc ops [] g

/-- Eager results of the first `i` nodes of a graph. -/
def denPre (ops : Nat → List V → Except String V) (g : Graph V) (i : Nat) :
    List (Except Nat V) :=
  denoteAcc ops [] (g.take i)

/-- The eager meaning of node `i` of graph `g`: the result of evaluating the
same calls eagerly, bottom-up. -/
def denoteE (ops : Nat → List V → Except String V) (g : Graph V) (i : Nat) : Except Nat V :=
  lookupE (denotes ops g) i

/-! ### Scheduler / Executor

Modelled from the spec §4.3 and §5: the scheduler executes the graph's nodes
in a dependency-respecting completion order (the order abstracts the
nondeterministic completion sequence produced by the execution units under any
`max_parallelism`), keeps a done map, reference counts of remaining
dependents, a failure table, and a log of actual operation invocations.  On a
node's completion each dependency's count drops; at zero its stored result is
evicted unless it is a requested target.  A node whose dependency failed is
marked failed-by-propagation and never dispatched. -/

/-- Pointwise update of a table. -/
def upd {α : Type} (f : Nat → α) (i : Nat) (a : α) : Nat → α :=
  fun j => if j = i then a else f j

/-- Modelled from the spec: the scheduler-internal Execution Context (§3):
done map, failure table (with originating node), remaining-dependent counts,
plus a log of the operation invocations actually dispatched, recorded as
(node id, operation identity, argument values). -/
structure SchedState (V : Type) where
  done : Nat → Option V
  failedAt : Nat → Option Nat
  pending : Nat → Nat
  calls : List (Nat × Nat × List V)

/-- Resolve an argument against the done map (a reference must be present;
out of caution an evicted slot resolves to the default value, a case the
invariants below show is never exercised for dispatched nodes). -/
def resolveArg (d : Nat → Option V) : Arg V → V
  | .lit v => v
  | .ref j => (d j).getD default

/-- The first failed reference of an argument list, with its origin. -/
def firstFail (f : Nat → Option Nat) : List (Arg V) → Option Nat
  | [] => none
  | .lit _ :: rest => firstFail f rest
  | .ref j :: rest =>
    match f j with
    | some o => some o
    | none => firstFail f rest

/-- Modelled from the spec §4.3(b): on a completion, decrement a dependency's
remaining-dependent count; at zero evict its stored result unless it is a
requested target (memory release). -/
def release (targets : List Nat) (st : SchedState V) (j : Nat) : SchedState V :=
  let p := st.pending j - 1
  let st1 : SchedState V := { st with pending := upd st.pending j p }
  if p = 0 && !(targets.contains j) then { st1 with done := upd st1.done j none } else st1

/-- Modelled from the spec §4.3(b)-(c): complete one node.  If some dependency
already failed, the node is marked failed-by-propagation (with the origin of
its first failed argument) and never dispatched; otherwise its operation is
invoked on the resolved argument values and the result stored (or the node
recorded as the failure origin).  Either way every dependency's
remaining-dependent count is decremented, with eviction at zero. -/
def schedStep (ops : Nat → List V → Except String V) (g : Graph V) (targets : List Nat)
    (st : SchedState V) (i : Nat) : SchedState V :=
  match g[i]? with
  | none => st
  | some n =>
    let st1 : SchedState V :=
      match firstFail st.failedAt n.args with
      | some o => { st with failedAt := upd st.failedAt i (some o) }
      | none =>
        match ops n.op (n.args.map (resolveArg st.done)) with
        | .ok v =>
          { st with done := upd st.done i (some v),
                    calls := st.calls ++ [(i, n.op, n.args.map (resolveArg st.done))] }
        | .error _ =>
          { st with failedAt := upd st.failedAt i (some i),
                    calls := st.calls ++ [(i, n.op, n.args.map (resolveArg st.done))] }
    (nodeDeps n).foldl (release targets) st1

/-- Modelled from the spec §4.3 step 2: the number of dependents of `j` among
the scheduled nodes `order` (edge-counted, as the scheduler decrements once
per dependency occurrence). -/
def refCount (g : Graph V) (order : List Nat) (j : Nat) : Nat :=
  (order.map fun i => (nodeDeps (nodeAt g i)).count j).sum

/-- Modelled from the spec §4.3 steps 1-3: fresh bookkeeping for a run over
the scheduled nodes `order`. -/
def initSched (g : Graph V) (order : List Nat) : SchedState V :=
  { done := fun _ => none, failedAt := fun _ => none,
    pending := refCount g order, calls := [] }

/-- Modelled from the spec §4.3 step 4: run the scheduler to completion along
a completion order (one entry per scheduled node). -/
def runSched (ops : Nat → List V → Except String V) (g : Graph V) (targets : List Nat)
    (order : List Nat) : SchedState V :=
  order.foldl (schedStep ops g targets) (initSched g order)

/-- Bool check that a completion order is dependency-respecting: scanning
left to right with the already-completed prefix `pre`, each node exists, was
not completed twice, and has all dependencies already completed.  Any
interleaving the execution units can produce, for any `max_parallelism`,
satisfies this. -/
def validSeqAux (g : Graph V) : List Nat → List Nat → Bool
  | _, [] => true
  | pre, i :: rest =>
    decide (i < g.length) && !(pre.contains i) &&
      ((nodeDeps (nodeAt g i)).all fun j => pre.contains j) &&
      validSeqAux g (pre ++ [i]) rest

/-- A dependency-respecting completion order for `g`, started from nothing. -/
def validSeq (g : Graph V) (order : List Nat) : Bool := validSeqAux g [] order

/-- The invocation a node contributes to the call log when dispatched (its
arguments' eager values), or `none` when it is failed by propagation and
never dispatched. -/
def invokeOf (ops : Nat → List V → Except String V) (g : Graph V) (i : Nat) :
    Option (Nat × Nat × List V) :=
  match evalArgsE (denPre ops g i) (nodeAt g i).args with
  | .error _ => none
  | .ok vs => some (i, (nodeAt g i).op, vs)

/-! ### The scheduler invariant

After the nodes of `P` have completed (in order) and the nodes of `rest` are
still pending, the scheduler state agrees with the eager semantics: failure
table and retained done entries carry the eager results, the pending counters
count the remaining dependent edges, and the call log holds exactly the
dispatched invocations.  A done entry is retained only while a pending node
still needs it, or the node is a target, or it never had any dependent. -/

structure SchedInv (ops : Nat → List V → Except String V) (g : Graph V) (targets : List Nat)
    (P rest : List Nat) (st : SchedState V) : Prop where
  nodup : P.Nodup
  bounded : ∀ d ∈ P, d < g.length
  closed : ∀ d ∈ P, ∀ j ∈ nodeDeps (nodeAt g d), j ∈ P
  fresh_done : ∀ j, j ∉ P → st.done j = none
  fresh_fail : ∀ j, j ∉ P → st.failedAt j = none
  fail_eq : ∀ j ∈ P, st.failedAt j = errOf (denoteE ops g j)
  done_eq : ∀ j ∈ P, st.done j =
      if j ∈ targets ∨ 0 < refCount g rest j ∨ refCount g (P ++ rest) j = 0
      then okOf (denoteE ops g j) else none
  pending_eq : ∀ j, st.pending j = refCount g rest j
  calls_eq : st.calls = P.filterMap (invokeOf ops g)

/-! ### Errors, handle operations, topological order -/

/-- Modelled from the spec §7: the engine's synchronous error taxonomy
relevant to graph construction. -/
inductive EngineError where
  | notConcrete
  | cycle
deriving DecidableEq

/-- Modelled from the spec §4.1: the operations attempted on a Lazy Handle —
the supported derived operations produce new Task Nodes; truthiness,
iteration and in-place mutation are forbidden. -/
inductive HKind where
  | getattr
  | getitem
  | arith
  | methodCall
  | truthiness
  | iterate
  | mutate
deriving DecidableEq

/-- The forbidden (eager-only) handle operations. -/
def HKind.forbidden : HKind → Bool
  | .truthiness => true
  | .iterate => true
  | .mutate => true
  | _ => false

/-- Operation identity assigned to a derived node built by a handle
operation. -/
def HKind.opCode : HKind → Nat
  | .getattr => 0
  | .getitem => 1
  | .arith => 2
  | .methodCall => 3
  | .truthiness => 4
  | .iterate => 5
  | .mutate => 6

/-- Modelled from the spec §4.1/§7: apply a handle operation to the handle
`h`.  A supported operation builds a new Task Node (never evaluating — the
underlying operations are not in scope); a forbidden one fails immediately
with `NotConcreteError`, leaving the graph untouched. -/
def applyHandleOp (g : Graph V) (k : HKind) (h : Nat) (extra : List (Arg V)) :
    Graph V × Except EngineError Nat :=
  if k.forbidden then (g, .error .notConcrete)
  else ((wrapCall g k.opCode (Arg.ref h :: extra)).1,
        .ok (wrapCall g k.opCode (Arg.ref h :: extra)).2)

/-- Modelled from the spec §4.2: dependency-ordered traversal with the
defensive `CycleError` check. -/
def topologicalOrder (g : Graph V) : Except EngineError (List Nat) :=
  if validSeq g (List.range g.length) then .ok (List.range g.length) else .error .cycle

/-- The dependency relation on node ids: `depRel g a b` when node `a` lists
`b` among its dependencies. -/
def depRel (g : Graph V) (a b : Nat) : Prop := b ∈ nodeDeps (nodeAt g a)

/-! ### Sessions: building graphs, then computing -/

/-- Modelled from the spec §6: a user action at the library boundary — a
wrapped call (building a node lazily) or a `compute` on a set of targets. -/
inductive Cmd (V : Type) where
  | wrap (op : Nat) (args : List (Arg V))
  | compute (targets : List Nat)

/-- Whether a command is a (lazy) wrapped call. -/
def Cmd.isWrap : Cmd V → Bool
  | .wrap _ _ => true
  | .compute _ => false

/-- The state of a user session: the shared graph, the done maps returned by
each `compute` call, and the cumulative log of operation invocations. -/
structure SessionState (V : Type) where
  graph : Graph V
  results : List (Nat → Option V)
  calls : List (Nat × Nat × List V)

/-- A fresh session: empty graph, no results, no invocations. -/
def initSession : SessionState V := ⟨[], [], []⟩

/-- Modelled from the spec: a wrapped call only extends the graph (the
operation is not invoked — `wrapCall` has no access to `ops`); `compute` runs
the scheduler over the graph (sequential single-unit completion order) and
appends its invocations to the log. -/
def stepCmd (ops : Nat → List V → Except String V) (s : SessionState V) :
    Cmd V → SessionState V
  | .wrap op args => { s with graph := (wrapCall s.graph op args).1 }
  | .compute tgts =>
    { s with
        results := s.results ++
          [(runSched ops s.graph tgts (List.range s.graph.length)).done],
        calls := s.calls ++
          (runSched ops s.graph tgts (List.range s.graph.length)).calls }

/-- Run a whole session from the empty graph. -/
def runSession (ops : Nat → List V → Except String V) (cmds : List (Cmd V)) :
    SessionState V :=
  cmds.foldl (stepCmd ops) initSession

/-! ### Reachability through dependencies (for failure propagation) -/

/-- Fuelled reachability: does node `i` transitively depend on node `b`? -/
def reachF (g : Graph V) : Nat → Nat → Nat → Bool
  | 0, _, _ => false
  | fuel + 1, i, b => (nodeDeps (nodeAt g i)).any fun j => j == b || reachF g fuel j b

/-- Executable transitive dependency: in a well-formed graph dependency ids
strictly decrease, so `g.length` fuel always suffices. -/
def reach (g : Graph V) (i b : Nat) : Bool := reachF g g.length i b

end Engine

/-! ### Word counting (notebook Example 1)

Translated from `src/01x_lazy.ipynb`: the whole-file variant reads the file
and counts `len(splitter.findall(data))` with `splitter = re.compile('\w+')`;
the streaming variant iterates the file's lines (each line keeps its
terminating newline) and accumulates the per-line counts.  A `\w+` match is a
maximal run of word characters, so counting runs equals counting matches. -/

/-- The ASCII word characters of `\w`: letters, digits, underscore. -/
def pyWordChar (c : Char) : Bool := c.isAlphanum || c == '_'

/-- Count the maximal runs of `w`-characters, carrying whether the previous
character was a `w`-character (`len(splitter.findall(...))`). -/
def countWordsAux (w : Char → Bool) : Bool → List Char → Nat
  | _, [] => 0
  | prev, c :: rest => (if w c && !prev then 1 else 0) + countWordsAux w (w c) rest

/-- The word count of a text, as the whole-file cell computes it. -/
def countWords (w : Char → Bool) (s : List Char) : Nat := countWordsAux w false s

/-- Split a text into its lines, each line keeping its terminating newline
(as `for line in f` yields them); a trailing piece without a newline is a
final line, and an empty text has no lines. -/
def splitLinesAux : List Char → List Char → List (List Char)
  | acc, [] => if acc.isEmpty then [] else [acc.reverse]
  | acc, c :: rest =>
    if c = '\n' then (acc.reverse ++ [c]) :: splitLinesAux [] rest
    else splitLinesAux (c :: acc) rest

/-- The lines of a text. -/
def splitLines (s : List Char) : List (List Char) := splitLinesAux [] s

/-- The word-character state after scanning a text. -/
def endsInWord (w : Char → Bool) : Bool → List Char → Bool
  | p, [] => p
  | _, c :: rest => endsInWord w (w c) rest

/-! ### Concrete graphs and operation environments from the notebook -/

/-- The notebook's `inc` (operation 0, `lambda x: x + 1`) and `add`
(operation 1, `lambda x, y: x + y`) as an operation environment. -/
def opsIncAdd : Nat → List Val → Except String Val := fun o vs =>
  match o, vs with
  | 0, [Val.int x] => .ok (.int (x + 1))
  | 1, [Val.int x, Val.int y] => .ok (.int (x + y))
  | _, _ => .error "type error"

/-- Scenario A of the spec: `y = inc(inc(1)); y.compute()`. -/
def cmdsScenarioA : List (Cmd Val) :=
  [.wrap 0 [.lit (.int 1)], .wrap 0 [.ref 0], .compute [1]]

/-- The notebook's first graph: `x = inc(15); y = inc(30);
total = add(x, y); total.compute()`. -/
def cmdsIncAdd : List (Cmd Val) :=
  [.wrap 0 [.lit (.int 15)], .wrap 0 [.lit (.int 30)],
   .wrap 1 [.ref 0, .ref 1], .compute [2]]

/-- A session that only wraps calls and never computes. -/
def cmdsWrapOnly : List (Cmd Val) :=
  [.wrap 0 [.lit (.int 1)], .wrap 0 [.ref 0]]

/-- Row contents standing in for the three account CSV files (the actual
`data/accounts.*.csv` files are generated outside the repository). -/
def csvRows (f : String) : List String :=
  if f = "data/accounts.0.csv" then ["row0", "row1"]
  else if f = "data/accounts.1.csv" then ["row2"]
  else ["row3", "row4"]

/-- Sum a list of integer values, if they are all integers. -/
def sumIntVals : List Val → Option Int
  | [] => some 0
  | Val.int x :: rest => (sumIntVals rest).map (fun s => x + s)
  | _ => none

/-- The operations of the delayed CSV pipeline: 10 = `pd.read_csv`,
11 = `len`, 12 = `sum`. -/
def opsCsv : Nat → List Val → Except String Val := fun o vs =>
  match o, vs with
  | 10, [Val.str f] => .ok (.rows (csvRows f))
  | 11, [Val.rows rs] => .ok (.int rs.length)
  | 12, xs =>
    match sumIntVals xs with
    | some n => .ok (.int n)
    | none => .error "type error"
  | _, _ => .error "type error"

/-- The notebook's delayed CSV pipeline graph (the graph it prints as
`total.dask`): three reads, three lens, one sum. -/
def csvGraph : Graph Val :=
  [⟨10, [.lit (.str "data/accounts.0.csv")]⟩,
   ⟨10, [.lit (.str "data/accounts.1.csv")]⟩,
   ⟨10, [.lit (.str "data/accounts.2.csv")]⟩,
   ⟨11, [.ref 0]⟩, ⟨11, [.ref 1]⟩, ⟨11, [.ref 2]⟩,
   ⟨12, [.ref 3, .ref 4, .ref 5]⟩]

/-- A depth-first completion order for the pipeline ("vertical before
horizontal": each read immediately followed by its len). -/
def csvOrderA : List Nat := [0, 3, 1, 4, 2, 5, 6]

/-- Another completion order (all reads first, as when three execution units
run the reads in parallel). -/
def csvOrderB : List Nat := [0, 1, 2, 3, 4, 5, 6]

/-- Scenario C: node 1 is deliberately configured to raise (operation 99);
node 2 depends on it; node 3 is an independent sibling target. -/
def failGraph : Graph Val :=
  [⟨0, []⟩, ⟨99, [.ref 0]⟩, ⟨1, [.ref 1]⟩, ⟨2, [.lit (.int 5)]⟩]

/-- Operation 99 always raises; every other operation succeeds. -/
def opsFail : Nat → List Val → Except String Val := fun o _ =>
  if o = 99 then .error "deliberate failure" else .ok (.int 7)

/-- An operation environment that always succeeds. -/
def opsConst : Nat → List Val → Except String Val := fun o _ => .ok (.int (o + 1))

/-- A two-node chain: target node 1 depends on node 0 (whose result must be
evicted once node 1 completes). -/
def chainGraph : Graph Val := [⟨0, []⟩, ⟨1, [.ref 0]⟩]

section Engine

variable {V : Type} [DecidableEq V] [Inhabited V]

theorem wfbFrom_iff (l : Graph V) : ∀ k, wfbFrom k l = true ↔
    (∀ i n, l[i]? = some n → ∀ j ∈ nodeDeps n, j < k + i) := by
  induction l with
  | nil => intro k; simp [wfbFrom]
  | cons m rest ih =>
    intro k
    simp only [wfbFrom, Bool.and_eq_true, ih (k + 1)]
    constructor
    · rintro ⟨hm, hrest⟩ i n hi j hj
      cases i with
      | zero =>
        rw [List.getElem?_cons_zero] at hi
        cases hi
        have := (List.all_eq_true.mp hm) j hj
        simp only [decide_eq_true_eq, nodeOkb] at this ⊢
        omega
      | succ i' =>
        rw [List.getElem?_cons_succ] at hi
        have := hrest i' n hi j hj
        omega
    · intro h
      refine ⟨?_, ?_⟩
      · apply List.all_eq_true.mpr
        intro j hj
        have := h 0 m (by rw [List.getElem?_cons_zero]) j hj
        simp only [decide_eq_true_eq]
        omega
      · intro i n hi j hj
        have := h (i + 1) n (by rwa [List.getElem?_cons_succ]) j hj
        omega

theorem wfb_iff (g : Graph V) : wfb g = true ↔ WfGraph g := by
  unfold wfb WfGraph
  rw [wfbFrom_iff]
  simp

theorem nodeAt_eq_of_getElem? {g : Graph V} {i : Nat} {n : TaskNode V}
    (h : g[i]? = some n) : nodeAt g i = n := by
  simp [nodeAt, h]

theorem getElem?_nodeAt {g : Graph V} {i : Nat} (h : i < g.length) :
    g[i]? = some (nodeAt g i) := by
  rw [List.getElem?_eq_getElem h]
  simp [nodeAt, List.getElem?_eq_getElem h]

theorem wf_deps_lt {g : Graph V} (hwf : WfGraph g) {i : Nat} (h : i < g.length) :
    ∀ j ∈ nodeDeps (nodeAt g i), j < i :=
  hwf i (nodeAt g i) (getElem?_nodeAt h)

theorem deps_nil_of_ge {g : Graph V} {i : Nat} (h : g.length ≤ i) :
    nodeDeps (nodeAt g i) = ([] : List Nat) := by
  have hnone : g[i]? = none := List.getElem?_eq_none h
  simp [nodeAt, hnone, nodeDeps]

theorem findNode_lt {n : TaskNode V} : ∀ {g : Graph V} {i : Nat},
    findNode n g = some i → i < g.length := by
  intro g
  induction g with
  | nil => intro i h; simp [findNode] at h
  | cons m rest ih =>
    intro i h
    by_cases hm : m = n
    · rw [findNode, if_pos hm] at h
      cases h
      simp
    · rw [findNode, if_neg hm] at h
      rcases Option.map_eq_some'.mp h with ⟨i', hi', rfl⟩
      have := ih hi'
      simp only [List.length_cons]
      omega

theorem findNode_getElem? {n : TaskNode V} : ∀ {g : Graph V} {i : Nat},
    findNode n g = some i → g[i]? = some n := by
  intro g
  induction g with
  | nil => intro i h; simp [findNode] at h
  | cons m rest ih =>
    intro i h
    by_cases hm : m = n
    · rw [findNode, if_pos hm] at h
      cases h
      rw [List.getElem?_cons_zero, hm]
    · rw [findNode, if_neg hm] at h
      rcases Option.map_eq_some'.mp h with ⟨i', hi', rfl⟩
      rw [List.getElem?_cons_succ]
      exact ih hi'

theorem findNode_append_self {n : TaskNode V} : ∀ {g : Graph V},
    findNode n g = none → findNode n (g ++ [n]) = some g.length := by
  intro g
  induction g with
  | nil => intro _; simp [findNode]
  | cons m rest ih =>
    intro h
    rw [findNode] at h
    by_cases hm : m = n
    · rw [if_pos hm] at h; exact Option.noConfusion h
    · rw [if_neg hm] at h
      have h2 : findNode n rest = none := by
        cases hfn : findNode n rest with
        | none => rfl
        | some i => rw [hfn] at h; simp at h
      rw [List.cons_append, findNode, if_neg hm, ih h2]
      simp

/-- The dedup property of the builder: re-wrapping an identical call returns
the same id and leaves the arena unchanged. -/
theorem wrapCall_idem (g : Graph V) (op : Nat) (args : List (Arg V)) :
    wrapCall (wrapCall g op args).1 op args = wrapCall g op args := by
  unfold wrapCall
  cases h : findNode (⟨op, args⟩ : TaskNode V) g with
  | some i => simp [h]
  | none => simp [h, findNode_append_self h]

theorem wrapCall_length (g : Graph V) (op : Nat) (args : List (Arg V)) :
    (wrapCall g op args).2 < (wrapCall g op args).1.length := by
  unfold wrapCall
  cases h : findNode (⟨op, args⟩ : TaskNode V) g with
  | some i => simpa using findNode_lt h
  | none => simp

theorem wrapCall_getElem? (g : Graph V) (op : Nat) (args : List (Arg V)) :
    (wrapCall g op args).1[(wrapCall g op args).2]? = some ⟨op, args⟩ := by
  unfold wrapCall
  cases h : findNode (⟨op, args⟩ : TaskNode V) g with
  | some i => simpa using findNode_getElem? h
  | none =>
    simp only
    rw [List.getElem?_append_right (Nat.le_refl _)]
    simp

theorem wrapCall_wf {g : Graph V} (hwf : WfGraph g) {op : Nat} {args : List (Arg V)}
    (hargs : boundedArgsb g args = true) : WfGraph (wrapCall g op args).1 := by
  unfold wrapCall
  cases h : findNode (⟨op, args⟩ : TaskNode V) g with
  | some i => exact hwf
  | none =>
    simp only
    intro i n hi j hj
    rcases Nat.lt_or_ge i g.length with hlt | hge
    · rw [List.getElem?_append_left hlt] at hi
      exact hwf i n hi j hj
    · have hi2 : i = g.length := by
        by_contra hne
        have hgt : g.length + 1 ≤ i := by omega
        have hnone : (g ++ [(⟨op, args⟩ : TaskNode V)])[i]? = none := by
          apply List.getElem?_eq_none
          simp
          omega
        rw [hnone] at hi
        exact Option.noConfusion hi
      subst hi2
      rw [List.getElem?_append_right hge] at hi
      simp only [Nat.sub_self, List.getElem?_cons_zero, Option.some_inj] at hi
      subst hi
      simp only [nodeDeps] at hj
      rcases List.mem_filterMap.mp hj with ⟨a, ha, hr⟩
      cases a with
      | lit v => simp [argRef] at hr
      | ref j' =>
        simp only [argRef, Option.some_inj] at hr
        subst hr
        have := (List.all_eq_true.mp hargs) _ ha
        simpa using this

theorem nodeResult_err {ops : Nat → List V → Except String V} {acc : List (Except Nat V)}
    {n : TaskNode V} {o : Nat} (h : evalArgsE acc n.args = .error o) :
    nodeResult ops acc n = .error o := by
  simp [nodeResult, h]

theorem nodeResult_okv {ops : Nat → List V → Except String V} {acc : List (Except Nat V)}
    {n : TaskNode V} {vs : List V} {v : V} (h : evalArgsE acc n.args = .ok vs)
    (h2 : ops n.op vs = .ok v) : nodeResult ops acc n = .ok v := by
  simp [nodeResult, h, h2]

theorem nodeResult_opfail {ops : Nat → List V → Except String V} {acc : List (Except Nat V)}
    {n : TaskNode V} {vs : List V} {e : String} (h : evalArgsE acc n.args = .ok vs)
    (h2 : ops n.op vs = .error e) : nodeResult ops acc n = .error acc.length := by
  simp [nodeResult, h, h2]

theorem denoteAcc_append (ops : Nat → List V → Except String V)
    (l₁ : List (TaskNode V)) : ∀ (l₂ : List (TaskNode V)) (acc : List (Except Nat V)),
    denoteAcc ops acc (l₁ ++ l₂) = denoteAcc ops (denoteAcc ops acc l₁) l₂ := by
  induction l₁ with
  | nil => intro l₂ acc; rfl
  | cons n rest ih =>
    intro l₂ acc
    simp only [List.cons_append, denoteAcc]
    exact ih l₂ _

theorem denoteAcc_length (ops : Nat → List V → Except String V) :
    ∀ (l : List (TaskNode V)) (acc : List (Except Nat V)),
    (denoteAcc ops acc l).length = acc.length + l.length := by
  intro l
  induction l with
  | nil => intro acc; simp [denoteAcc]
  | cons n rest ih =>
    intro acc
    simp only [denoteAcc, ih, List.length_append, List.length_cons]
    simp
    omega

theorem denoteAcc_lookup_lt (ops : Nat → List V → Except String V) :
    ∀ (l : List (TaskNode V)) (acc : List (Except Nat V)) (j : Nat), j < acc.length →
    lookupE (denoteAcc ops acc l) j = lookupE acc j := by
  intro l
  induction l with
  | nil => intro acc j _; rfl
  | cons n rest ih =>
    intro acc j hj
    simp only [denoteAcc]
    rw [ih _ j (by simp; omega)]
    unfold lookupE
    rw [List.getElem?_append_left hj]

theorem denoteAcc_lookup (ops : Nat → List V → Except String V) :
    ∀ (l : List (TaskNode V)) (acc : List (Except Nat V)) (i : Nat) (h : i < l.length),
    lookupE (denoteAcc ops acc l) (acc.length + i) =
      nodeResult ops (denoteAcc ops acc (l.take i)) (l.get ⟨i, h⟩) := by
  intro l
  induction l with
  | nil => intro acc i h; simp at h
  | cons n rest ih =>
    intro acc i h
    cases i with
    | zero =>
      simp only [denoteAcc, List.take_zero, List.get]
      rw [denoteAcc_lookup_lt ops rest _ _ (by simp)]
      unfold lookupE
      rw [Nat.add_zero, List.getElem?_append_right (Nat.le_refl _)]
      simp
    | succ i' =>
      simp only [denoteAcc, List.take_succ_cons, List.get]
      have hlen : (acc ++ [nodeResult ops acc n]).length = acc.length + 1 := by simp
      have := ih (acc ++ [nodeResult ops acc n]) i' (by simpa using Nat.lt_of_succ_lt_succ h)
      rw [hlen] at this
      have e : acc.length + (i' + 1) = acc.length + 1 + i' := by omega
      rw [e]
      exact this

theorem denPre_length (ops : Nat → List V → Except String V) {g : Graph V} {i : Nat}
    (h : i ≤ g.length) : (denPre ops g i).length = i := by
  unfold denPre
  rw [denoteAcc_length]
  simp
  omega

theorem denotes_length (ops : Nat → List V → Except String V) (g : Graph V) :
    (denotes ops g).length = g.length := by
  unfold denotes
  rw [denoteAcc_length]
  simp

theorem denotes_via_denPre (ops : Nat → List V → Except String V) (g : Graph V) (i : Nat) :
    denotes ops g = denoteAcc ops (denPre ops g i) (g.drop i) := by
  unfold denotes denPre
  rw [← denoteAcc_append, List.take_append_drop]

theorem lookupE_denPre (ops : Nat → List V → Except String V) {g : Graph V} {i j : Nat}
    (hj : j < i) (hi : i ≤ g.length) :
    lookupE (denPre ops g i) j = denoteE ops g j := by
  unfold denoteE
  rw [denotes_via_denPre ops g i]
  rw [denoteAcc_lookup_lt ops _ _ j (by rw [denPre_length ops hi]; exact hj)]

theorem denoteE_char (ops : Nat → List V → Except String V) {g : Graph V} {i : Nat}
    (h : i < g.length) :
    denoteE ops g i = nodeResult ops (denPre ops g i) (nodeAt g i) := by
  unfold denoteE denotes
  have := denoteAcc_lookup ops g [] i h
  simp only [List.length_nil, Nat.zero_add] at this
  rw [this]
  unfold denPre
  congr 1
  · exact (List.get_eq_getElem g ⟨i, h⟩).symm ▸ by
      have : g.get ⟨i, h⟩ = nodeAt g i := by
        unfold nodeAt
        rw [List.getElem?_eq_getElem h]
        simp [List.get_eq_getElem]
      exact this

theorem denoteE_ge (ops : Nat → List V → Except String V) {g : Graph V} {i : Nat}
    (h : g.length ≤ i) : denoteE ops g i = .ok default := by
  unfold denoteE lookupE
  have : (denotes ops g)[i]? = none := by
    apply List.getElem?_eq_none
    rw [denotes_length]
    exact h
  rw [this]
  rfl

/-- The length of the eager prefix used for node `i`, as the failure origin. -/
theorem denPre_origin (ops : Nat → List V → Except String V) {g : Graph V} {i : Nat}
    (h : i < g.length) : (denPre ops g i).length = i :=
  denPre_length ops (Nat.le_of_lt h)

theorem upd_same {α : Type} (f : Nat → α) (i : Nat) (a : α) : upd f i a i = a := by
  simp [upd]

theorem upd_other {α : Type} (f : Nat → α) {i j : Nat} (a : α) (h : j ≠ i) :
    upd f i a j = f j := by
  simp [upd, h]

theorem refCount_nil (g : Graph V) (j : Nat) : refCount g [] j = 0 := rfl

theorem refCount_cons (g : Graph V) (i : Nat) (order : List Nat) (j : Nat) :
    refCount g (i :: order) j = (nodeDeps (nodeAt g i)).count j + refCount g order j := by
  simp [refCount]

theorem refCount_append (g : Graph V) (o₁ o₂ : List Nat) (j : Nat) :
    refCount g (o₁ ++ o₂) j = refCount g o₁ j + refCount g o₂ j := by
  simp [refCount]

theorem refCount_pos {g : Graph V} {order : List Nat} {j : Nat}
    (h : 0 < refCount g order j) : ∃ i ∈ order, j ∈ nodeDeps (nodeAt g i) := by
  induction order with
  | nil => simp [refCount] at h
  | cons i rest ih =>
    rw [refCount_cons] at h
    rcases Nat.eq_zero_or_pos ((nodeDeps (nodeAt g i)).count j) with hc | hc
    · rw [hc, Nat.zero_add] at h
      rcases ih h with ⟨i', hi', hj⟩
      exact ⟨i', by simp [hi'], hj⟩
    · exact ⟨i, by simp, List.count_pos_iff.mp hc⟩

theorem refCount_zero_of {g : Graph V} {order : List Nat} {j : Nat}
    (h : ∀ i ∈ order, j ∉ nodeDeps (nodeAt g i)) : refCount g order j = 0 := by
  induction order with
  | nil => rfl
  | cons i rest ih =>
    rw [refCount_cons]
    rw [List.count_eq_zero.mpr (h i (by simp)), ih (fun i' hi' => h i' (by simp [hi']))]

/-! ### Characterizing one release pass -/

theorem release_pending (targets : List Nat) (st : SchedState V) (d : Nat) :
    (release targets st d).pending = upd st.pending d (st.pending d - 1) := by
  simp only [release]
  split <;> rfl

theorem release_failedAt (targets : List Nat) (st : SchedState V) (d : Nat) :
    (release targets st d).failedAt = st.failedAt := by
  simp only [release]
  split <;> rfl

theorem release_calls (targets : List Nat) (st : SchedState V) (d : Nat) :
    (release targets st d).calls = st.calls := by
  simp only [release]
  split <;> rfl

theorem release_done (targets : List Nat) (st : SchedState V) (d : Nat) :
    (release targets st d).done =
      if st.pending d - 1 = 0 ∧ d ∉ targets then upd st.done d none else st.done := by
  simp only [release]
  by_cases h1 : st.pending d - 1 = 0 <;> by_cases h2 : d ∈ targets <;>
    simp [h1, h2, List.elem_eq_mem]

theorem releases_failedAt (targets : List Nat) :
    ∀ (ds : List Nat) (st : SchedState V),
    (ds.foldl (release targets) st).failedAt = st.failedAt := by
  intro ds
  induction ds with
  | nil => intro st; rfl
  | cons d rest ih =>
    intro st
    simp only [List.foldl_cons, ih, release_failedAt]

theorem releases_calls (targets : List Nat) :
    ∀ (ds : List Nat) (st : SchedState V),
    (ds.foldl (release targets) st).calls = st.calls := by
  intro ds
  induction ds with
  | nil => intro st; rfl
  | cons d rest ih =>
    intro st
    simp only [List.foldl_cons, ih, release_calls]

theorem releases_pending (targets : List Nat) :
    ∀ (ds : List Nat) (st : SchedState V) (j : Nat),
    (ds.foldl (release targets) st).pending j = st.pending j - ds.count j := by
  intro ds
  induction ds with
  | nil => intro st j; simp
  | cons d rest ih =>
    intro st j
    simp only [List.foldl_cons, ih, release_pending]
    by_cases hj : j = d
    · subst hj
      rw [upd_same]
      rw [List.count_cons_self]
      omega
    · rw [upd_other _ _ hj]
      rw [List.count_cons_of_ne hj]

theorem releases_done (targets : List Nat) :
    ∀ (ds : List Nat) (st : SchedState V) (j : Nat), ds.count j ≤ st.pending j →
    (ds.foldl (release targets) st).done j =
      if 0 < ds.count j ∧ st.pending j = ds.count j ∧ j ∉ targets then none
      else st.done j := by
  intro ds
  induction ds with
  | nil => intro st j _; simp
  | cons d rest ih =>
    intro st j hle
    simp only [List.foldl_cons]
    by_cases hj : j = d
    · subst hj
      rw [List.count_cons_self] at hle ⊢
      have hpj : (release targets st j).pending j = st.pending j - 1 := by
        rw [release_pending, upd_same]
      have hcount : rest.count j ≤ (release targets st j).pending j := by
        rw [hpj]; omega
      rw [ih _ j hcount, hpj]
      by_cases htg : j ∈ targets
      · rw [if_neg (by simp [htg]), if_neg (by simp [htg])]
        rw [release_done, if_neg (by simp [htg])]
      · by_cases hz : st.pending j - 1 = 0
        · have hp1 : st.pending j = rest.count j + 1 := by omega
          have hr0 : rest.count j = 0 := by omega
          rw [if_neg (by simp [hr0]), if_pos ⟨by omega, by omega, htg⟩]
          rw [release_done, if_pos ⟨hz, htg⟩, upd_same]
        · have hd : (release targets st j).done j = st.done j := by
            rw [release_done, if_neg (by intro hc; exact hz hc.1)]
          rw [hd]
          by_cases heq : st.pending j - 1 = rest.count j
          · have h0 : 0 < rest.count j := by omega
            rw [if_pos ⟨h0, heq, htg⟩, if_pos ⟨by omega, by omega, htg⟩]
          · rw [if_neg (by intro hc; exact heq hc.2.1), if_neg (by intro hc; omega)]
    · have hdone : (release targets st d).done j = st.done j := by
        rw [release_done]
        split
        · rw [upd_other _ _ hj]
        · rfl
      have hpend : (release targets st d).pending j = st.pending j := by
        rw [release_pending, upd_other _ _ hj]
      rw [List.count_cons_of_ne hj] at hle ⊢
      rw [ih _ j (by rw [hpend]; exact hle), hdone, hpend]

/-! ### Simulating argument resolution against the eager semantics -/

theorem args_sim (facc : Nat → Option Nat) (dacc : Nat → Option V)
    (acc : List (Except Nat V)) :
    ∀ args : List (Arg V),
    (∀ j, Arg.ref j ∈ args → facc j = errOf (lookupE acc j) ∧
        ∀ v, lookupE acc j = .ok v → dacc j = some v) →
    firstFail facc args = errOf (evalArgsE acc args) ∧
    (∀ vs, evalArgsE acc args = .ok vs → args.map (resolveArg dacc) = vs) := by
  intro args
  induction args with
  | nil =>
    intro _
    refine ⟨rfl, ?_⟩
    intro vs hvs
    simp [evalArgsE] at hvs
    simp [hvs.symm]
  | cons a rest ih =>
    intro h
    have hrest := ih fun j hj => h j (by simp [hj])
    cases a with
    | lit v =>
      refine ⟨?_, ?_⟩
      · rw [firstFail]
        rw [hrest.1]
        cases hr : evalArgsE acc rest with
        | error o => simp [evalArgsE, hr, errOf]
        | ok vs => simp [evalArgsE, hr, errOf]
      · intro vs hvs
        rw [evalArgsE] at hvs
        cases hr : evalArgsE acc rest with
        | error o => rw [hr] at hvs; exact Except.noConfusion hvs
        | ok vs' =>
          rw [hr] at hvs
          cases hvs
          simp only [List.map_cons, resolveArg]
          rw [hrest.2 vs' hr]
    | ref j =>
      have hj := h j (by simp)
      cases hl : lookupE acc j with
      | error o =>
        refine ⟨?_, ?_⟩
        · rw [firstFail, hj.1, hl]
          simp only [errOf]
          rw [evalArgsE, hl]
        · intro vs hvs
          rw [evalArgsE, hl] at hvs
          exact Except.noConfusion hvs
      | ok v =>
        refine ⟨?_, ?_⟩
        · rw [firstFail, hj.1, hl]
          simp only [errOf]
          rw [hrest.1]
          rw [evalArgsE, hl]
          cases hr : evalArgsE acc rest with
          | error o => simp [errOf]
          | ok vs => simp [errOf]
        · intro vs hvs
          rw [evalArgsE, hl] at hvs
          cases hr : evalArgsE acc rest with
          | error o => rw [hr] at hvs; exact Except.noConfusion hvs
          | ok vs' =>
            rw [hr] at hvs
            cases hvs
            rw [List.map_cons, hrest.2 vs' hr]
            simp [resolveArg, hj.2 v hl]

theorem schedInv_init (ops : Nat → List V → Except String V) (g : Graph V)
    (targets order : List Nat) :
    SchedInv ops g targets [] order (initSched g order) := by
  refine ⟨List.nodup_nil, ?_, ?_, ?_, ?_, ?_, ?_, ?_, ?_⟩ <;>
    simp [initSched]

theorem mem_deps_of_ref {n : TaskNode V} {j : Nat} (h : Arg.ref j ∈ n.args) :
    j ∈ nodeDeps n :=
  List.mem_filterMap.mpr ⟨.ref j, h, rfl⟩

/-- One completion step preserves the invariant, given a uniform
characterization of the node-completion part of the step (before the release
pass over the dependencies). -/
theorem schedInv_assemble {ops : Nat → List V → Except String V} {g : Graph V}
    {targets : List Nat} {P rest : List Nat} {st st1 : SchedState V} {i : Nat}
    (hwf : WfGraph g)
    (hlen : i < g.length) (hni : i ∉ P)
    (hdeps : ∀ j ∈ nodeDeps (nodeAt g i), j ∈ P)
    (hinv : SchedInv ops g targets P (i :: rest) st)
    (h1done : ∀ j, st1.done j = if j = i then okOf (denoteE ops g i) else st.done j)
    (h1fail : ∀ j, st1.failedAt j = if j = i then errOf (denoteE ops g i) else st.failedAt j)
    (h1pend : st1.pending = st.pending)
    (h1calls : st1.calls = st.calls ++ (invokeOf ops g i).toList) :
    SchedInv ops g targets (P ++ [i]) rest
      ((nodeDeps (nodeAt g i)).foldl (release targets) st1) := by
  have hdlt : ∀ j ∈ nodeDeps (nodeAt g i), j < i := wf_deps_lt hwf hlen
  have hinds : i ∉ nodeDeps (nodeAt g i) := fun h => absurd (hdlt i h) (lt_irrefl i)
  have hpend1 : ∀ j, st1.pending j = (nodeDeps (nodeAt g i)).count j + refCount g rest j := by
    intro j
    rw [h1pend, hinv.pending_eq, refCount_cons]
  have hcount_le : ∀ j, (nodeDeps (nodeAt g i)).count j ≤ st1.pending j := by
    intro j
    rw [hpend1]
    omega
  have hfp : ∀ j, ((nodeDeps (nodeAt g i)).foldl (release targets) st1).pending j
      = refCount g rest j := by
    intro j
    rw [releases_pending, hpend1]
    omega
  have hffin : ((nodeDeps (nodeAt g i)).foldl (release targets) st1).failedAt
      = st1.failedAt := releases_failedAt _ _ _
  have hcfin : ((nodeDeps (nodeAt g i)).foldl (release targets) st1).calls
      = st1.calls := releases_calls _ _ _
  have hdfin : ∀ j, ((nodeDeps (nodeAt g i)).foldl (release targets) st1).done j =
      if 0 < (nodeDeps (nodeAt g i)).count j ∧
          st1.pending j = (nodeDeps (nodeAt g i)).count j ∧ j ∉ targets then none
      else st1.done j :=
    fun j => releases_done targets _ st1 j (hcount_le j)
  have hRCP : refCount g P i = 0 := by
    apply refCount_zero_of
    intro d hd hmem
    exact hni (hinv.closed d hd i hmem)
  have hsplit : ∀ j, refCount g (P ++ [i] ++ rest) j =
      refCount g P j + (nodeDeps (nodeAt g i)).count j + refCount g rest j := by
    intro j
    rw [refCount_append, refCount_append, refCount_cons, refCount_nil]
    omega
  have hsplit' : ∀ j, refCount g (P ++ i :: rest) j =
      refCount g P j + (nodeDeps (nodeAt g i)).count j + refCount g rest j := by
    intro j
    rw [refCount_append, refCount_cons]
    omega
  have hmem' : ∀ {j : Nat}, j ∈ P ++ [i] ↔ j ∈ P ∨ j = i := by
    intro j
    simp [List.mem_append]
  refine ⟨?_, ?_, ?_, ?_, ?_, ?_, ?_, hfp, ?_⟩
  · -- nodup
    refine List.Nodup.append hinv.nodup (List.nodup_singleton i) ?_
    intro a ha hb
    rw [List.mem_singleton] at hb
    subst hb
    exact hni ha
  · -- bounded
    intro d hd
    rcases hmem'.mp hd with hd | rfl
    · exact hinv.bounded d hd
    · exact hlen
  · -- closed
    intro d hd j hj
    rcases hmem'.mp hd with hd | rfl
    · exact hmem'.mpr (Or.inl (hinv.closed d hd j hj))
    · exact hmem'.mpr (Or.inl (hdeps j hj))
  · -- fresh_done
    intro j hj
    rw [hmem'] at hj
    push_neg at hj
    rw [hdfin]
    have h1 : st1.done j = none := by
      rw [h1done, if_neg hj.2, hinv.fresh_done j hj.1]
    rw [h1]
    split <;> rfl
  · -- fresh_fail
    intro j hj
    rw [hmem'] at hj
    push_neg at hj
    rw [hffin, h1fail, if_neg hj.2]
    exact hinv.fresh_fail j hj.1
  · -- fail_eq
    intro j hj
    rw [hffin, h1fail]
    rcases hmem'.mp hj with hj | rfl
    · have hne : j ≠ i := fun h => hni (h ▸ hj)
      rw [if_neg hne]
      exact hinv.fail_eq j hj
    · rw [if_pos rfl]
  · -- done_eq
    intro j hj
    rw [hdfin]
    rcases hmem'.mp hj with hj | rfl
    · -- an already-completed node
      have hne : j ≠ i := fun h => hni (h ▸ hj)
      have h1 : st1.done j = st.done j := by rw [h1done, if_neg hne]
      have hold := hinv.done_eq j hj
      rw [h1, hold, hpend1, hsplit j, refCount_cons, hsplit' j]
      by_cases htg : j ∈ targets
      · rw [if_neg (by simp [htg]), if_pos (Or.inl htg), if_pos (Or.inl htg)]
      · by_cases hc : 0 < (nodeDeps (nodeAt g i)).count j
        · have hR0 : ¬ (refCount g P j + (nodeDeps (nodeAt g i)).count j
              + refCount g rest j = 0) := by omega
          rw [if_pos (Or.inr (Or.inl (by omega)))]
          by_cases hr : 0 < refCount g rest j
          · rw [if_neg (by intro hcc; omega), if_pos (Or.inr (Or.inl hr))]
          · rw [if_pos ⟨hc, by omega, htg⟩, if_neg ?_]
            intro hcc
            rcases hcc with hcc | hcc | hcc
            · exact htg hcc
            · omega
            · omega
        · have hc0 : (nodeDeps (nodeAt g i)).count j = 0 := by omega
          rw [if_neg (by intro hcc; omega), hc0]
          simp only [Nat.zero_add]
    · -- the newly completed node i (here renamed j by the substitution)
      have hc0 : (nodeDeps (nodeAt g j)).count j = 0 := List.count_eq_zero.mpr hinds
      have h1 : st1.done j = okOf (denoteE ops g j) := by rw [h1done, if_pos rfl]
      have hcond : j ∈ targets ∨ 0 < refCount g rest j ∨
          refCount g (P ++ [j] ++ rest) j = 0 := by
        rcases Nat.eq_zero_or_pos (refCount g rest j) with hr | hr
        · refine Or.inr (Or.inr ?_)
          rw [hsplit j, hRCP, hc0, hr]
        · exact Or.inr (Or.inl hr)
      rw [if_neg (by rw [hc0]; intro hcc; omega), h1, if_pos hcond]
  · -- calls_eq
    rw [hcfin, h1calls, hinv.calls_eq, List.filterMap_append]
    congr 1

/-- Completing the next node of a dependency-respecting order preserves the
scheduler invariant. -/
theorem schedInv_step {ops : Nat → List V → Except String V} {g : Graph V}
    {targets : List Nat} (hwf : WfGraph g) {P rest : List Nat} {st : SchedState V} {i : Nat}
    (hlen : i < g.length) (hni : i ∉ P)
    (hdeps : ∀ j ∈ nodeDeps (nodeAt g i), j ∈ P)
    (hinv : SchedInv ops g targets P (i :: rest) st) :
    SchedInv ops g targets (P ++ [i]) rest (schedStep ops g targets st i) := by
  have hget : g[i]? = some (nodeAt g i) := getElem?_nodeAt hlen
  have hdlt : ∀ j ∈ nodeDeps (nodeAt g i), j < i := wf_deps_lt hwf hlen
  have hacc : ∀ j, Arg.ref j ∈ (nodeAt g i).args →
      st.failedAt j = errOf (lookupE (denPre ops g i) j) ∧
      ∀ v, lookupE (denPre ops g i) j = .ok v → st.done j = some v := by
    intro j hj
    have hjd : j ∈ nodeDeps (nodeAt g i) := mem_deps_of_ref hj
    have hjP : j ∈ P := hdeps j hjd
    have hjlt : j < i := hdlt j hjd
    have hlook : lookupE (denPre ops g i) j = denoteE ops g j :=
      lookupE_denPre ops hjlt (Nat.le_of_lt hlen)
    constructor
    · rw [hlook]
      exact hinv.fail_eq j hjP
    · intro v hv
      rw [hlook] at hv
      have hcond : j ∈ targets ∨ 0 < refCount g (i :: rest) j ∨
          refCount g (P ++ i :: rest) j = 0 := by
        refine Or.inr (Or.inl ?_)
        rw [refCount_cons]
        have := List.count_pos_iff.mpr hjd
        omega
      rw [hinv.done_eq j hjP, if_pos hcond, hv]
      rfl
  have hsim := args_sim st.failedAt st.done (denPre ops g i) (nodeAt g i).args hacc
  have hchar : denoteE ops g i = nodeResult ops (denPre ops g i) (nodeAt g i) :=
    denoteE_char ops hlen
  have hlenacc : (denPre ops g i).length = i := denPre_length ops (Nat.le_of_lt hlen)
  cases hff : firstFail st.failedAt (nodeAt g i).args with
  | some o =>
    have hargs : evalArgsE (denPre ops g i) (nodeAt g i).args = .error o := by
      have h1 := hsim.1
      rw [hff] at h1
      cases h2 : evalArgsE (denPre ops g i) (nodeAt g i).args with
      | error o' =>
        rw [h2] at h1
        simp [errOf] at h1
        rw [h1]
      | ok vs =>
        rw [h2] at h1
        simp [errOf] at h1
    have hEi : denoteE ops g i = .error o := by
      rw [hchar]
      exact nodeResult_err hargs
    have hio : invokeOf ops g i = none := by
      unfold invokeOf
      rw [hargs]
    have hstep : schedStep ops g targets st i =
        (nodeDeps (nodeAt g i)).foldl (release targets)
          { st with failedAt := upd st.failedAt i (some o) } := by
      simp only [schedStep, hget, hff]
    rw [hstep]
    apply schedInv_assemble hwf hlen hni hdeps hinv
    · intro j
      by_cases hji : j = i
      · subst hji
        rw [if_pos rfl, hEi, hinv.fresh_done j hni]
        rfl
      · rw [if_neg hji]
    · intro j
      by_cases hji : j = i
      · subst hji
        rw [if_pos rfl, hEi]
        exact upd_same _ _ _
      · rw [if_neg hji]
        exact upd_other _ _ hji
    · rfl
    · rw [hio]
      simp
  | none =>
    have h1 := hsim.1
    rw [hff] at h1
    cases hargs : evalArgsE (denPre ops g i) (nodeAt g i).args with
    | error o =>
      rw [hargs] at h1
      simp [errOf] at h1
    | ok vs =>
      have hmap : (nodeAt g i).args.map (resolveArg st.done) = vs := hsim.2 vs hargs
      have hio : invokeOf ops g i = some (i, (nodeAt g i).op, vs) := by
        unfold invokeOf
        rw [hargs]
      cases hop : ops (nodeAt g i).op vs with
      | ok v =>
        have hEi : denoteE ops g i = .ok v := by
          rw [hchar]
          exact nodeResult_okv hargs hop
        have hopm : ops (nodeAt g i).op ((nodeAt g i).args.map (resolveArg st.done)) = .ok v := by
          rw [hmap]
          exact hop
        have hstep : schedStep ops g targets st i =
            (nodeDeps (nodeAt g i)).foldl (release targets)
              { st with
                  done := upd st.done i (some v),
                  calls := st.calls ++
                    [(i, (nodeAt g i).op, (nodeAt g i).args.map (resolveArg st.done))] } := by
          simp only [schedStep, hget, hff, hopm]
        rw [hstep]
        apply schedInv_assemble hwf hlen hni hdeps hinv
        · intro j
          by_cases hji : j = i
          · subst hji
            rw [if_pos rfl, hEi]
            exact upd_same _ _ _
          · rw [if_neg hji]
            exact upd_other _ _ hji
        · intro j
          by_cases hji : j = i
          · subst hji
            rw [if_pos rfl, hEi, hinv.fresh_fail j hni]
            rfl
          · rw [if_neg hji]
        · rfl
        · rw [hio, hmap]
          rfl
      | error e =>
        have hEi : denoteE ops g i = .error i := by
          rw [hchar, nodeResult_opfail hargs hop, hlenacc]
        have hopm : ops (nodeAt g i).op ((nodeAt g i).args.map (resolveArg st.done)) =
            .error e := by
          rw [hmap]
          exact hop
        have hstep : schedStep ops g targets st i =
            (nodeDeps (nodeAt g i)).foldl (release targets)
              { st with
                  failedAt := upd st.failedAt i (some i),
                  calls := st.calls ++
                    [(i, (nodeAt g i).op, (nodeAt g i).args.map (resolveArg st.done))] } := by
          simp only [schedStep, hget, hff, hopm]
        rw [hstep]
        apply schedInv_assemble hwf hlen hni hdeps hinv
        · intro j
          by_cases hji : j = i
          · subst hji
            rw [if_pos rfl, hEi, hinv.fresh_done j hni]
            rfl
          · rw [if_neg hji]
        · intro j
          by_cases hji : j = i
          · subst hji
            rw [if_pos rfl, hEi]
            exact upd_same _ _ _
          · rw [if_neg hji]
            exact upd_other _ _ hji
        · rfl
        · rw [hio, hmap]
          rfl

/-- Running a dependency-respecting segment carries the invariant forward. -/
theorem schedInv_run (ops : Nat → List V → Except String V) (g : Graph V)
    (targets : List Nat) (hwf : WfGraph g) :
    ∀ (r₁ P r₂ : List Nat) (st : SchedState V),
    validSeqAux g P (r₁ ++ r₂) = true →
    SchedInv ops g targets P (r₁ ++ r₂) st →
    SchedInv ops g targets (P ++ r₁) r₂ (r₁.foldl (schedStep ops g targets) st) := by
  intro r₁
  induction r₁ with
  | nil =>
    intro P r₂ st _ hinv
    simpa using hinv
  | cons i r₁ ih =>
    intro P r₂ st hval hinv
    rw [List.cons_append, validSeqAux] at hval
    simp only [Bool.and_eq_true, decide_eq_true_eq, Bool.not_eq_true',
      List.all_eq_true] at hval
    rcases hval with ⟨⟨⟨hlen, hcont⟩, hdeps⟩, hval'⟩
    have hni : i ∉ P := by
      intro h
      simp [List.contains, List.elem_eq_mem, h] at hcont
    have hdeps' : ∀ j ∈ nodeDeps (nodeAt g i), j ∈ P := by
      intro j hj
      have := hdeps j hj
      simpa [List.contains, List.elem_eq_mem] using this
    have hstep := schedInv_step hwf hlen hni hdeps' hinv
    have := ih (P ++ [i]) r₂ _ hval' hstep
    rw [List.append_assoc] at this
    simpa using this

/-- The invariant at the end of a full dependency-respecting run. -/
theorem runSched_inv (ops : Nat → List V → Except String V) (g : Graph V)
    (targets order : List Nat) (hwf : WfGraph g) (horder : validSeq g order = true) :
    SchedInv ops g targets order [] (runSched ops g targets order) := by
  have e : order ++ ([] : List Nat) = order := List.append_nil order
  have h := schedInv_run ops g targets hwf order [] [] (initSched g order)
    (by rw [e]; exact horder) (by rw [e]; exact schedInv_init ops g targets order)
  simpa using h

/-- A full run records in the failure table exactly the eager failures. -/
theorem runSched_failedAt (ops : Nat → List V → Except String V) (g : Graph V)
    (targets order : List Nat) (hwf : WfGraph g) (horder : validSeq g order = true)
    (hcomp : ∀ i, i < g.length → i ∈ order) {t : Nat} (htl : t < g.length) :
    (runSched ops g targets order).failedAt t = errOf (denoteE ops g t) :=
  (runSched_inv ops g targets order hwf horder).fail_eq t (hcomp t htl)

/-- A full run leaves each target's eager result in the done map. -/
theorem runSched_done_target (ops : Nat → List V → Except String V) (g : Graph V)
    (targets order : List Nat) (hwf : WfGraph g) (horder : validSeq g order = true)
    (hcomp : ∀ i, i < g.length → i ∈ order) {t : Nat} (ht : t ∈ targets)
    (htl : t < g.length) :
    (runSched ops g targets order).done t = okOf (denoteE ops g t) := by
  have h := (runSched_inv ops g targets order hwf horder).done_eq t (hcomp t htl)
  rw [h, if_pos (Or.inl ht)]

/-- A full run logs exactly the dispatched invocations, one per node. -/
theorem runSched_calls (ops : Nat → List V → Except String V) (g : Graph V)
    (targets order : List Nat) (hwf : WfGraph g) (horder : validSeq g order = true) :
    (runSched ops g targets order).calls = order.filterMap (invokeOf ops g) :=
  (runSched_inv ops g targets order hwf horder).calls_eq

theorem depRel_lt {g : Graph V} (hwf : WfGraph g) {a b : Nat} (h : depRel g a b) :
    b < a := by
  rcases Nat.lt_or_ge a g.length with hlt | hge
  · exact wf_deps_lt hwf hlt b h
  · rw [depRel, deps_nil_of_ge hge] at h
    exact absurd h (List.not_mem_nil b)

theorem transGen_depRel_lt {g : Graph V} (hwf : WfGraph g) {a b : Nat}
    (h : Relation.TransGen (depRel g) a b) : b < a := by
  induction h with
  | single h1 => exact depRel_lt hwf h1
  | tail _ h2 ih => exact Nat.lt_trans (depRel_lt hwf h2) ih

theorem wf_acyclic {g : Graph V} (hwf : WfGraph g) (i : Nat) :
    ¬ Relation.TransGen (depRel g) i i := fun h =>
  absurd (transGen_depRel_lt hwf h) (lt_irrefl i)

theorem validSeqAux_range {g : Graph V} (hwf : WfGraph g) :
    ∀ (m k : Nat), k + m ≤ g.length →
    validSeqAux g (List.range k) (List.range' k m) = true := by
  intro m
  induction m with
  | zero => intro k _; rfl
  | succ m ih =>
    intro k hk
    have hklen : k < g.length := by omega
    rw [List.range'_succ, validSeqAux]
    simp only [Bool.and_eq_true, decide_eq_true_eq, Bool.not_eq_true',
      List.all_eq_true]
    refine ⟨⟨⟨hklen, ?_⟩, ?_⟩, ?_⟩
    · simp [List.contains, List.elem_eq_mem, List.mem_range]
    · intro j hj
      have := wf_deps_lt hwf hklen j hj
      simp [List.contains, List.elem_eq_mem, List.mem_range]
      exact this
    · rw [← List.range_succ]
      exact ih (k + 1) (by omega)

theorem validSeq_range {g : Graph V} (hwf : WfGraph g) :
    validSeq g (List.range g.length) = true := by
  have h := validSeqAux_range hwf g.length 0 (by omega)
  rw [List.range_zero] at h
  rw [validSeq, List.range_eq_range']
  exact h

theorem topologicalOrder_ok {g : Graph V} (hwf : WfGraph g) :
    topologicalOrder g = .ok (List.range g.length) := by
  rw [topologicalOrder, if_pos (validSeq_range hwf)]

theorem foldl_wrap_only (ops ops' : Nat → List V → Except String V) :
    ∀ (cmds : List (Cmd V)) (s : SessionState V), cmds.all Cmd.isWrap = true →
    cmds.foldl (stepCmd ops) s = cmds.foldl (stepCmd ops') s ∧
    (cmds.foldl (stepCmd ops) s).calls = s.calls ∧
    (cmds.foldl (stepCmd ops) s).results = s.results := by
  intro cmds
  induction cmds with
  | nil => intro s _; exact ⟨rfl, rfl, rfl⟩
  | cons c rest ih =>
    intro s hall
    rw [List.all_cons, Bool.and_eq_true] at hall
    cases c with
    | wrap op args =>
      simp only [List.foldl_cons]
      exact ih _ hall.2
    | compute tgts => simp [Cmd.isWrap] at hall

/-! ### Pure operations: everything succeeds, each node invoked once -/

theorem lookupE_ok_of {acc : List (Except Nat V)} (h : ∀ e ∈ acc, ∃ v, e = Except.ok v)
    (j : Nat) : ∃ v, lookupE acc j = .ok v := by
  unfold lookupE
  cases hj : acc[j]? with
  | none => exact ⟨default, rfl⟩
  | some e =>
    rcases h e (List.getElem?_mem hj) with ⟨v, rfl⟩
    exact ⟨v, rfl⟩

theorem evalArgsE_ok_of_refs (acc : List (Except Nat V)) :
    ∀ as : List (Arg V), (∀ j, Arg.ref j ∈ as → ∃ v, lookupE acc j = .ok v) →
    ∃ vs, evalArgsE acc as = .ok vs := by
  intro as
  induction as with
  | nil => intro _; exact ⟨[], rfl⟩
  | cons a rest ih =>
    intro h
    have hrest := ih fun j hj => h j (by simp [hj])
    rcases hrest with ⟨vs, hvs⟩
    cases a with
    | lit v => exact ⟨v :: vs, by simp [evalArgsE, hvs]⟩
    | ref j =>
      rcases h j (by simp) with ⟨v, hv⟩
      exact ⟨v :: vs, by simp [evalArgsE, hv, hvs]⟩

theorem evalArgsE_err_uniform (acc : List (Except Nat V)) (b : Nat) :
    ∀ as : List (Arg V),
    (∀ j, Arg.ref j ∈ as → (∃ v, lookupE acc j = .ok v) ∨ lookupE acc j = .error b) →
    (∃ j, Arg.ref j ∈ as ∧ lookupE acc j = .error b) →
    evalArgsE acc as = .error b := by
  intro as
  induction as with
  | nil =>
    rintro _ ⟨j, hj, _⟩
    exact absurd hj (List.not_mem_nil _)
  | cons a rest ih =>
    rintro h ⟨j, hj, herr⟩
    cases a with
    | lit v =>
      have hjr : Arg.ref j ∈ rest := by
        rcases List.mem_cons.mp hj with h1 | h1
        · exact absurd h1 (by simp)
        · exact h1
      have := ih (fun j' hj' => h j' (by simp [hj'])) ⟨j, hjr, herr⟩
      simp [evalArgsE, this]
    | ref j0 =>
      cases hl : lookupE acc j0 with
      | error o =>
        have : o = b := by
          rcases h j0 (by simp) with ⟨v, hv⟩ | hv
          · rw [hl] at hv; exact Except.noConfusion hv
          · rw [hl] at hv; exact Except.error.inj hv
        subst this
        simp [evalArgsE, hl]
      | ok v =>
        have hjr : Arg.ref j ∈ rest := by
          rcases List.mem_cons.mp hj with h1 | h1
          · cases h1
            rw [hl] at herr
            exact Except.noConfusion herr
          · exact h1
        have := ih (fun j' hj' => h j' (by simp [hj'])) ⟨j, hjr, herr⟩
        simp [evalArgsE, hl, this]

theorem denoteAcc_all_ok {ops : Nat → List V → Except String V}
    (hops : ∀ o vs, ∃ v, ops o vs = .ok v) :
    ∀ (l : List (TaskNode V)) (acc : List (Except Nat V)),
    (∀ e ∈ acc, ∃ v, e = Except.ok v) →
    ∀ e ∈ denoteAcc ops acc l, ∃ v, e = Except.ok v := by
  intro l
  induction l with
  | nil =>
    intro acc hacc e he
    rw [denoteAcc] at he
    exact hacc e he
  | cons n rest ih =>
    intro acc hacc e he
    rw [denoteAcc] at he
    refine ih (acc ++ [nodeResult ops acc n]) ?_ e he
    intro e' he'
    rcases List.mem_append.mp he' with h1 | h1
    · exact hacc e' h1
    · rw [List.mem_singleton] at h1
      subst h1
      rcases evalArgsE_ok_of_refs acc n.args
        (fun j _ => lookupE_ok_of hacc j) with ⟨vs, hvs⟩
      rcases hops n.op vs with ⟨v, hv⟩
      exact ⟨v, nodeResult_okv hvs hv⟩

theorem denoteE_all_ok {ops : Nat → List V → Except String V}
    (hops : ∀ o vs, ∃ v, ops o vs = .ok v) (g : Graph V) (i : Nat) :
    ∃ v, denoteE ops g i = .ok v := by
  unfold denoteE denotes
  exact lookupE_ok_of (denoteAcc_all_ok hops g [] (by simp)) i

theorem invokeOf_eq_some {ops : Nat → List V → Except String V}
    (hops : ∀ o vs, ∃ v, ops o vs = .ok v) (g : Graph V) (i : Nat) :
    ∃ vs, invokeOf ops g i = some (i, (nodeAt g i).op, vs) := by
  unfold invokeOf
  have hacc : ∀ e ∈ denPre ops g i, ∃ v, e = Except.ok v :=
    denoteAcc_all_ok hops (g.take i) [] (by simp)
  rcases evalArgsE_ok_of_refs (denPre ops g i) (nodeAt g i).args
    (fun j _ => lookupE_ok_of hacc j) with ⟨vs, hvs⟩
  exact ⟨vs, by rw [hvs]⟩

theorem invokeOf_id {ops : Nat → List V → Except String V} {g : Graph V} {i : Nat}
    {c : Nat × Nat × List V} (h : invokeOf ops g i = some c) : c.1 = i := by
  unfold invokeOf at h
  cases h2 : evalArgsE (denPre ops g i) (nodeAt g i).args with
  | error o =>
    rw [h2] at h
    exact Option.noConfusion h
  | ok vs =>
    rw [h2] at h
    cases h
    rfl

theorem filter_calls_zero (ops : Nat → List V → Except String V) (g : Graph V) (i : Nat) :
    ∀ P : List Nat, i ∉ P →
    ((P.filterMap (invokeOf ops g)).filter fun c => c.1 == i).length = 0 := by
  intro P
  induction P with
  | nil => intro _; rfl
  | cons j rest ih =>
    intro hni
    have hne : j ≠ i := fun h => hni (by simp [h])
    have hrest : i ∉ rest := fun h => hni (by simp [h])
    rw [List.filterMap_cons]
    cases hj : invokeOf ops g j with
    | none => exact ih hrest
    | some c =>
      have hc : c.1 = j := invokeOf_id hj
      rw [List.filter_cons_of_neg (by simp [hc, hne]), ih hrest]

theorem filter_calls_one (ops : Nat → List V → Except String V) (g : Graph V) (i : Nat) :
    ∀ P : List Nat, P.Nodup → i ∈ P → (invokeOf ops g i).isSome = true →
    ((P.filterMap (invokeOf ops g)).filter fun c => c.1 == i).length = 1 := by
  intro P
  induction P with
  | nil => intro _ h _; exact absurd h (List.not_mem_nil _)
  | cons j rest ih =>
    intro hnd hmem hsome
    rcases List.nodup_cons.mp hnd with ⟨hjr, hndr⟩
    by_cases hij : i = j
    · subst hij
      cases hc : invokeOf ops g i with
      | none => rw [hc] at hsome; exact Bool.noConfusion hsome
      | some c =>
        have hcid : c.1 = i := invokeOf_id hc
        rw [List.filterMap_cons, hc, List.filter_cons_of_pos (by simp [hcid])]
        rw [List.length_cons, filter_calls_zero ops g i rest hjr]
    · have hmem' : i ∈ rest := by
        rcases List.mem_cons.mp hmem with h | h
        · exact absurd h hij
        · exact h
      rw [List.filterMap_cons]
      cases hj : invokeOf ops g j with
      | none => exact ih hndr hmem' hsome
      | some c =>
        have hc : c.1 = j := invokeOf_id hj
        rw [List.filter_cons_of_neg (by simp [hc]; omega), ih hndr hmem' hsome]

theorem list_any_congr {α : Type} {p q : α → Bool} :
    ∀ l : List α, (∀ a ∈ l, p a = q a) → l.any p = l.any q := by
  intro l
  induction l with
  | nil => intro _; rfl
  | cons a rest ih =>
    intro h
    rw [List.any_cons, List.any_cons, h a (by simp), ih fun a' ha' => h a' (by simp [ha'])]

theorem reachF_stable {g : Graph V} (hwf : WfGraph g) (b : Nat) :
    ∀ (i f₁ f₂ : Nat), i < f₁ → i < f₂ → reachF g f₁ i b = reachF g f₂ i b := by
  intro i
  induction i using Nat.strong_induction_on with
  | _ i ih =>
    intro f₁ f₂ h₁ h₂
    cases f₁ with
    | zero => omega
    | succ f₁ =>
      cases f₂ with
      | zero => omega
      | succ f₂ =>
        rw [reachF, reachF]
        apply list_any_congr
        intro j hj
        have hji : j < i := depRel_lt hwf hj
        rw [ih j hji f₁ f₂ (by omega) (by omega)]

theorem reach_iff {g : Graph V} (hwf : WfGraph g) {i b : Nat} (hi : i < g.length) :
    reach g i b = (nodeDeps (nodeAt g i)).any fun j => j == b || reach g j b := by
  simp only [reach]
  rcases hl : g.length with _ | m
  · omega
  · rw [reachF]
    apply list_any_congr
    intro j hj
    have hji : j < i := wf_deps_lt hwf hi j hj
    rw [reachF_stable hwf b j m (m + 1) (by omega) (by omega)]

theorem reach_false_of_ge {g : Graph V} {i b : Nat} (hi : g.length ≤ i) :
    reach g i b = false := by
  unfold reach
  cases hl : g.length with
  | zero => rfl
  | succ m =>
    rw [reachF, deps_nil_of_ge (by omega)]
    rfl

theorem reach_lt {g : Graph V} (hwf : WfGraph g) :
    ∀ i, ∀ b, reach g i b = true → b < i := by
  intro i
  induction i using Nat.strong_induction_on with
  | _ i ih =>
    intro b h
    rcases Nat.lt_or_ge i g.length with hi | hi
    · rw [reach_iff hwf hi] at h
      rcases List.any_eq_true.mp h with ⟨j, hjmem, hj⟩
      have hji : j < i := wf_deps_lt hwf hi j hjmem
      rw [Bool.or_eq_true] at hj
      rcases hj with hj | hj
      · have : j = b := by simpa using hj
        omega
      · have := ih j hji b hj
        omega
    · rw [reach_false_of_ge hi] at h
      exact Bool.noConfusion h

theorem ref_of_mem_deps {n : TaskNode V} {j : Nat} (h : j ∈ nodeDeps n) :
    Arg.ref j ∈ n.args := by
  rcases List.mem_filterMap.mp h with ⟨a, ha, hr⟩
  cases a with
  | lit v => exact absurd hr (by simp [argRef])
  | ref j' =>
    have : j' = j := by simpa [argRef] using hr
    subst this
    exact ha

/-- With a single deliberately-failing node `b` (its operation identity fails
on every input and belongs to no other node, every other operation succeeds),
the eager semantics fails with origin `b` exactly on the nodes that
transitively depend on `b` (and on `b` itself), and succeeds elsewhere. -/
theorem single_fail {ops : Nat → List V → Except String V} {g : Graph V}
    {b : Nat} {B : TaskNode V} (hwf : WfGraph g)
    (hb : g[b]? = some B)
    (hfail : ∀ vs v, ops B.op vs ≠ .ok v)
    (hok : ∀ o, o ≠ B.op → ∀ vs, ∃ v, ops o vs = .ok v)
    (huniq : ∀ i, i < g.length → (nodeAt g i).op = B.op → i = b) :
    ∀ i, i < g.length →
    ((reach g i b = true ∨ i = b) → denoteE ops g i = .error b) ∧
    (reach g i b = false → i ≠ b → ∃ v, denoteE ops g i = .ok v) := by
  have hblen : b < g.length := by
    by_contra h
    rw [List.getElem?_eq_none (by omega)] at hb
    exact Option.noConfusion hb
  have hnodeb : nodeAt g b = B := nodeAt_eq_of_getElem? hb
  intro i
  induction i using Nat.strong_induction_on with
  | _ i ih =>
    intro hi
    have hchar := denoteE_char ops hi
    have hlook : ∀ j, j < i → lookupE (denPre ops g i) j = denoteE ops g j :=
      fun j hj => lookupE_denPre ops hj (Nat.le_of_lt hi)
    -- every reference of node i is settled by the induction hypothesis
    have hrefcase : ∀ j, Arg.ref j ∈ (nodeAt g i).args →
        (∃ v, lookupE (denPre ops g i) j = .ok v) ∨
        lookupE (denPre ops g i) j = .error b := by
      intro j hjr
      have hjd := mem_deps_of_ref hjr
      have hji : j < i := wf_deps_lt hwf hi j hjd
      have hjlen : j < g.length := by omega
      rw [hlook j hji]
      by_cases hc : reach g j b = true ∨ j = b
      · exact Or.inr ((ih j hji hjlen).1 hc)
      · push_neg at hc
        refine Or.inl ((ih j hji hjlen).2 ?_ hc.2)
        cases hcb : reach g j b with
        | false => rfl
        | true => exact absurd hcb hc.1
    constructor
    · intro hcase
      rcases hcase with hreach | hib
      · rw [reach_iff hwf hi] at hreach
        rcases List.any_eq_true.mp hreach with ⟨j, hjmem, hj⟩
        have hji : j < i := wf_deps_lt hwf hi j hjmem
        have hjlen : j < g.length := by omega
        have hjerr : denoteE ops g j = .error b := by
          rw [Bool.or_eq_true] at hj
          rcases hj with hj | hj
          · have : j = b := by simpa using hj
            exact (ih j hji hjlen).1 (Or.inr this)
          · exact (ih j hji hjlen).1 (Or.inl hj)
        rw [hchar]
        apply nodeResult_err
        apply evalArgsE_err_uniform (denPre ops g i) b (nodeAt g i).args hrefcase
        exact ⟨j, ref_of_mem_deps hjmem, by rw [hlook j hji]; exact hjerr⟩
      · subst hib
        -- node i = b itself: its arguments are below b and all succeed
        have hargsok : ∀ j, Arg.ref j ∈ (nodeAt g i).args →
            ∃ v, lookupE (denPre ops g i) j = .ok v := by
          intro j hjr
          have hjd := mem_deps_of_ref hjr
          have hji : j < i := wf_deps_lt hwf hi j hjd
          have hjlen : j < g.length := by omega
          rw [hlook j hji]
          refine (ih j hji hjlen).2 ?_ (by omega)
          cases hcb : reach g j i with
          | false => rfl
          | true =>
            have := reach_lt hwf j i hcb
            omega
        rcases evalArgsE_ok_of_refs (denPre ops g i) (nodeAt g i).args hargsok with ⟨vs, hvs⟩
        cases hop : ops (nodeAt g i).op vs with
        | ok v =>
          rw [hnodeb] at hop
          exact absurd hop (hfail vs v)
        | error e =>
          rw [hchar, nodeResult_opfail hvs hop, denPre_origin ops hi]
    · intro hnr hne
      have hargsok : ∀ j, Arg.ref j ∈ (nodeAt g i).args →
          ∃ v, lookupE (denPre ops g i) j = .ok v := by
        intro j hjr
        have hjd := mem_deps_of_ref hjr
        have hji : j < i := wf_deps_lt hwf hi j hjd
        have hjlen : j < g.length := by omega
        have hjok : ¬ (reach g j b = true ∨ j = b) := by
          intro hc
          have : reach g i b = true := by
            rw [reach_iff hwf hi]
            apply List.any_eq_true.mpr
            refine ⟨j, hjd, ?_⟩
            rw [Bool.or_eq_true]
            rcases hc with hc | hc
            · exact Or.inr hc
            · exact Or.inl (by simpa using hc)
          rw [this] at hnr
          exact Bool.noConfusion hnr
        push_neg at hjok
        rw [hlook j hji]
        refine (ih j hji hjlen).2 ?_ hjok.2
        cases hcb : reach g j b with
        | false => rfl
        | true => exact absurd hcb hjok.1
      rcases evalArgsE_ok_of_refs (denPre ops g i) (nodeAt g i).args hargsok with ⟨vs, hvs⟩
      have hopne : (nodeAt g i).op ≠ B.op := fun h => hne (huniq i hi h)
      rcases hok (nodeAt g i).op hopne vs with ⟨v, hv⟩
      exact ⟨v, by rw [hchar]; exact nodeResult_okv hvs hv⟩

end Engine

theorem countWordsAux_append (w : Char → Bool) :
    ∀ (xs ys : List Char) (p : Bool),
    countWordsAux w p (xs ++ ys) =
      countWordsAux w p xs + countWordsAux w (endsInWord w p xs) ys := by
  intro xs
  induction xs with
  | nil => intro ys p; simp [countWordsAux, endsInWord]
  | cons c xs ih =>
    intro ys p
    rw [List.cons_append, countWordsAux, countWordsAux, ih ys (w c)]
    rw [endsInWord]
    omega

theorem endsInWord_single (w : Char → Bool) (p : Bool) (c : Char) :
    endsInWord w p [c] = w c := rfl

theorem endsInWord_append (w : Char → Bool) :
    ∀ (xs ys : List Char) (p : Bool),
    endsInWord w p (xs ++ ys) = endsInWord w (endsInWord w p xs) ys := by
  intro xs
  induction xs with
  | nil => intro ys p; rfl
  | cons c xs ih =>
    intro ys p
    rw [List.cons_append, endsInWord, ih, endsInWord]

theorem splitLinesAux_sum (w : Char → Bool) (hw : w '\n' = false) :
    ∀ (s acc : List Char),
    ((splitLinesAux acc s).map (countWords w)).sum = countWords w (acc.reverse ++ s) := by
  intro s
  induction s with
  | nil =>
    intro acc
    rw [splitLinesAux]
    cases hacc : acc.isEmpty with
    | true =>
      have : acc = [] := List.isEmpty_iff.mp hacc
      subst this
      simp [countWords, countWordsAux]
    | false =>
      simp
  | cons c rest ih =>
    intro acc
    rw [splitLinesAux]
    by_cases hc : c = '\n'
    · subst hc
      rw [if_pos rfl, List.map_cons, List.sum_cons, ih []]
      have hsplit : acc.reverse ++ '\n' :: rest = (acc.reverse ++ ['\n']) ++ rest := by
        simp
      rw [hsplit]
      unfold countWords
      rw [countWordsAux_append w (acc.reverse ++ ['\n']) rest false]
      rw [endsInWord_append, endsInWord_single, hw]
      simp
    · rw [if_neg hc, ih (c :: acc)]
      congr 1
      simp

/-! ### The claims -/

section Claims

variable {V : Type} [DecidableEq V] [Inhabited V]

/-- C3: with `inc = wrap(lambda x: x+1)`, building `y = inc(inc(1))` and
computing yields 3, and the underlying lambda is invoked exactly twice (the
invocation log of the single `compute` holds two entries, both for operation
0); equivalently, the notebook's graph `add(inc(15), inc(30))` computes
to 47. -/
theorem claim_scenario_values :
    ((runSession opsIncAdd cmdsScenarioA).results.getD 0 (fun _ => none)) 1 =
      some (Val.int 3) ∧
    ((runSession opsIncAdd cmdsScenarioA).calls.map fun c => c.2.1) = [0, 0] ∧
    ((runSession opsIncAdd cmdsIncAdd).results.getD 0 (fun _ => none)) 2 =
      some (Val.int 47) := by
  decide

/-- C1: two wrapped calls with identical operation identity and identical
(literal-equal or same-id) arguments built into one graph are assigned the
same node id (the second build also leaves the graph unchanged), and during a
single compute over that graph the underlying operation is invoked exactly
once for that node (exactly one entry of the invocation log carries its id). -/
theorem claim_dedup_single_invocation (ops : Nat → List V → Except String V)
    (g : Graph V) (op : Nat) (args : List (Arg V)) (targets : List Nat)
    (hwf : wfb g = true) (hargs : boundedArgsb g args = true)
    (hops : ∀ o vs, ∃ v, ops o vs = .ok v) :
    (wrapCall (wrapCall g op args).1 op args).2 = (wrapCall g op args).2 ∧
    (wrapCall (wrapCall g op args).1 op args).1 = (wrapCall g op args).1 ∧
    ((runSched ops (wrapCall g op args).1 targets
        (List.range (wrapCall g op args).1.length)).calls.filter
      fun c => c.1 == (wrapCall g op args).2).length = 1 := by
  have hidem := wrapCall_idem g op args
  have hw1 : WfGraph (wrapCall g op args).1 := wrapCall_wf ((wfb_iff g).mp hwf) hargs
  refine ⟨?_, ?_, ?_⟩
  · rw [hidem]
  · rw [hidem]
  · rw [runSched_calls ops (wrapCall g op args).1 targets
      (List.range (wrapCall g op args).1.length) hw1 (validSeq_range hw1)]
    apply filter_calls_one
    · exact List.nodup_range _
    · exact List.mem_range.mpr (wrapCall_length g op args)
    · rcases invokeOf_eq_some hops (wrapCall g op args).1 (wrapCall g op args).2 with ⟨vs, hvs⟩
      rw [hvs]
      rfl

/-- C1 witness: wrapping the same call twice on the empty graph. -/
theorem claim_dedup_single_invocation_witness :
    (wrapCall (wrapCall ([] : Graph Val) 5 [Arg.lit (Val.int 7)]).1 5 [Arg.lit (Val.int 7)]).2 =
      (wrapCall ([] : Graph Val) 5 [Arg.lit (Val.int 7)]).2 ∧
    (wrapCall (wrapCall ([] : Graph Val) 5 [Arg.lit (Val.int 7)]).1 5 [Arg.lit (Val.int 7)]).1 =
      (wrapCall ([] : Graph Val) 5 [Arg.lit (Val.int 7)]).1 ∧
    ((runSched opsConst (wrapCall ([] : Graph Val) 5 [Arg.lit (Val.int 7)]).1 [0]
        (List.range (wrapCall ([] : Graph Val) 5 [Arg.lit (Val.int 7)]).1.length)).calls.filter
      fun c => c.1 == (wrapCall ([] : Graph Val) 5 [Arg.lit (Val.int 7)]).2).length = 1 :=
  claim_dedup_single_invocation opsConst [] 5 [Arg.lit (Val.int 7)] [0] (by decide) (by decide)
    (fun o _ => ⟨Val.int (o + 1), rfl⟩)

/-- C2: invoking the lazy callable returned by `wrap` never invokes the
underlying operation: a session of wrapped calls alone logs no invocation,
produces no computed result, and its entire outcome is independent of the
operations' semantics; an invocation can only enter the log through a
`compute` command. -/
theorem claim_wrapping_is_lazy (ops ops' : Nat → List V → Except String V)
    (cmds : List (Cmd V)) (hall : cmds.all Cmd.isWrap = true) :
    (runSession ops cmds).calls = [] ∧ (runSession ops cmds).results = [] ∧
    runSession ops cmds = runSession ops' cmds := by
  have h := foldl_wrap_only ops ops' cmds initSession hall
  exact ⟨h.2.1, h.2.2, h.1⟩

/-- C2 witness: a wrap-only session under two different operation
environments. -/
theorem claim_wrapping_is_lazy_witness :
    (runSession opsConst cmdsWrapOnly).calls = [] ∧
    (runSession opsConst cmdsWrapOnly).results = [] ∧
    runSession opsConst cmdsWrapOnly = runSession opsFail cmdsWrapOnly :=
  claim_wrapping_is_lazy opsConst opsFail cmdsWrapOnly rfl

/-- C4: executing a whole well-formed graph through the scheduler, along any
complete dependency-respecting completion order, yields for every requested
target exactly the eager evaluation of the same calls — both the computed
value and any failure agree with the eager semantics. -/
theorem claim_lazy_refines_eager (ops : Nat → List V → Except String V)
    (g : Graph V) (targets order : List Nat) (t : Nat)
    (hwf : wfb g = true) (hord : validSeq g order = true)
    (hcomp : ∀ i, i < g.length → i ∈ order) (ht : t ∈ targets) (htl : t < g.length) :
    (runSched ops g targets order).done t = okOf (denoteE ops g t) ∧
    (runSched ops g targets order).failedAt t = errOf (denoteE ops g t) :=
  ⟨runSched_done_target ops g targets order ((wfb_iff g).mp hwf) hord hcomp ht htl,
   runSched_failedAt ops g targets order ((wfb_iff g).mp hwf) hord hcomp htl⟩

/-- C4 witness: the delayed CSV read/len/sum pipeline computes eagerly the
sum of the three file lengths (2 + 1 + 2 rows here). -/
theorem claim_lazy_refines_eager_witness :
    ((runSched opsCsv csvGraph [6] csvOrderA).done 6 = okOf (denoteE opsCsv csvGraph 6) ∧
     (runSched opsCsv csvGraph [6] csvOrderA).failedAt 6 = errOf (denoteE opsCsv csvGraph 6)) ∧
    okOf (denoteE opsCsv csvGraph 6) = some (Val.int 5) :=
  ⟨claim_lazy_refines_eager opsCsv csvGraph [6] csvOrderA 6 (by decide) (by decide)
      (by decide) (by decide) (by decide), by decide⟩

/-- C5: a forbidden handle operation — truthiness, iteration, in-place
mutation — fails immediately and synchronously with `NotConcreteError`,
leaving the graph unchanged; no node is evaluated (the dispatcher has no
access to the operations at all). -/
theorem claim_forbidden_ops_not_concrete (g : Graph V) (k : HKind) (h : Nat)
    (extra : List (Arg V)) (hk : k.forbidden = true) :
    applyHandleOp g k h extra = (g, .error .notConcrete) := by
  rw [applyHandleOp, if_pos hk]

/-- C5 witness: the three forbidden operations on a handle of the CSV
pipeline graph. -/
theorem claim_forbidden_ops_not_concrete_witness :
    applyHandleOp csvGraph HKind.truthiness 6 [] = (csvGraph, .error .notConcrete) ∧
    applyHandleOp csvGraph HKind.iterate 6 [] = (csvGraph, .error .notConcrete) ∧
    applyHandleOp csvGraph HKind.mutate 6 [] = (csvGraph, .error .notConcrete) :=
  ⟨claim_forbidden_ops_not_concrete csvGraph HKind.truthiness 6 [] rfl,
   claim_forbidden_ops_not_concrete csvGraph HKind.iterate 6 [] rfl,
   claim_forbidden_ops_not_concrete csvGraph HKind.mutate 6 [] rfl⟩

/-- C6: two complete dependency-respecting completion orders — the completion
sequences two `compute` runs can produce under any two `max_parallelism`
settings — leave identical result values and identical failure reports for
every requested target: execution is deterministic as a two-run property. -/
theorem claim_determinism_across_orders (ops : Nat → List V → Except String V)
    (g : Graph V) (targets o₁ o₂ : List Nat) (t : Nat) (hwf : wfb g = true)
    (h₁ : validSeq g o₁ = true) (hc₁ : ∀ i, i < g.length → i ∈ o₁)
    (h₂ : validSeq g o₂ = true) (hc₂ : ∀ i, i < g.length → i ∈ o₂)
    (ht : t ∈ targets) (htl : t < g.length) :
    (runSched ops g targets o₁).done t = (runSched ops g targets o₂).done t ∧
    (runSched ops g targets o₁).failedAt t = (runSched ops g targets o₂).failedAt t := by
  have hw := (wfb_iff g).mp hwf
  constructor
  · rw [runSched_done_target ops g targets o₁ hw h₁ hc₁ ht htl,
      runSched_done_target ops g targets o₂ hw h₂ hc₂ ht htl]
  · rw [runSched_failedAt ops g targets o₁ hw h₁ hc₁ htl,
      runSched_failedAt ops g targets o₂ hw h₂ hc₂ htl]

/-- C6 witness: the CSV pipeline under a depth-first order and a
breadth-first order gives the same value for the target. -/
theorem claim_determinism_across_orders_witness :
    ((runSched opsCsv csvGraph [6] csvOrderA).done 6 =
      (runSched opsCsv csvGraph [6] csvOrderB).done 6 ∧
     (runSched opsCsv csvGraph [6] csvOrderA).failedAt 6 =
      (runSched opsCsv csvGraph [6] csvOrderB).failedAt 6) ∧
    (runSched opsCsv csvGraph [6] csvOrderA).done 6 = some (Val.int 5) :=
  ⟨claim_determinism_across_orders opsCsv csvGraph [6] csvOrderA csvOrderB 6
      (by decide) (by decide) (by decide) (by decide) (by decide) (by decide) (by decide),
   by decide⟩

/-- C7: under the §3 construction invariant (a node only references nodes
that already exist), which the builder preserves, the dependency relation
over node ids is acyclic, and `topological_order` returns an order without
ever taking its defensive `CycleError` branch. -/
theorem claim_dag_no_cycle_error (g : Graph V) (hwf : wfb g = true) :
    (∀ op args, boundedArgsb g args = true → wfb (wrapCall g op args).1 = true) ∧
    (∀ i, ¬ Relation.TransGen (depRel g) i i) ∧
    topologicalOrder g = .ok (List.range g.length) := by
  have hw := (wfb_iff g).mp hwf
  exact ⟨fun _ args ha => (wfb_iff (wrapCall g _ args).1).mpr (wrapCall_wf hw ha),
    wf_acyclic hw, topologicalOrder_ok hw⟩

/-- C7 witness: the CSV pipeline graph — builder preservation, no cycle
through the sum node, and a successful topological order. -/
theorem claim_dag_no_cycle_error_witness :
    wfb (wrapCall csvGraph 11 [Arg.ref 2]).1 = true ∧
    ¬ Relation.TransGen (depRel csvGraph) 6 6 ∧
    topologicalOrder csvGraph = .ok (List.range csvGraph.length) :=
  ⟨(claim_dag_no_cycle_error csvGraph (by decide)).1 11 [Arg.ref 2] (by decide),
   (claim_dag_no_cycle_error csvGraph (by decide)).2.1 6,
   (claim_dag_no_cycle_error csvGraph (by decide)).2.2⟩

/-- C8: mid-execution — after the prefix `P` of a complete dependency-
respecting order has completed and `rest` is still pending — every result
still stored in the done map belongs to a requested target or is still
needed by some pending node; equivalently, a node's stored result is evicted
once its last remaining dependent completes unless the node is a target.
(The `hneed` hypothesis is the §4.3 induced-subgraph condition: every
scheduled non-target node has a dependent.) -/
theorem claim_memory_release (ops : Nat → List V → Except String V) (g : Graph V)
    (targets P rest : List Nat) (j : Nat) (v : V) (hwf : wfb g = true)
    (hval : validSeq g (P ++ rest) = true)
    (hneed : ∀ i, i < g.length → i ∈ targets ∨ 0 < refCount g (P ++ rest) i)
    (hdone : (P.foldl (schedStep ops g targets) (initSched g (P ++ rest))).done j = some v) :
    j ∈ targets ∨ ∃ i ∈ rest, j ∈ nodeDeps (nodeAt g i) := by
  have hw := (wfb_iff g).mp hwf
  have hinv := schedInv_run ops g targets hw P [] rest (initSched g (P ++ rest)) hval
    (schedInv_init ops g targets (P ++ rest))
  by_cases hjP : j ∈ ([] : List Nat) ++ P
  · have hd := hinv.done_eq j hjP
    rw [hdone] at hd
    split at hd
    · rename_i hcond
      rcases hcond with h | h | h
      · exact Or.inl h
      · rcases refCount_pos h with ⟨i, hi, hmem⟩
        exact Or.inr ⟨i, hi, hmem⟩
      · have hjlen : j < g.length := hinv.bounded j hjP
        rcases hneed j hjlen with h' | h'
        · exact Or.inl h'
        · rw [List.nil_append] at h
          omega
    · exact Option.noConfusion hd
  · rw [hinv.fresh_done j hjP] at hdone
    exact Option.noConfusion hdone

/-- C8 witness: in the two-node chain with target 1, after both nodes
complete the target's result is the only one retained — node 0's result has
been evicted. -/
theorem claim_memory_release_witness :
    ((1 : Nat) ∈ ([1] : List Nat) ∨
      ∃ i ∈ ([] : List Nat), (1 : Nat) ∈ nodeDeps (nodeAt chainGraph i)) ∧
    ([0, 1].foldl (schedStep opsConst chainGraph [1])
      (initSched chainGraph ([0, 1] ++ []))).done 0 = none :=
  ⟨claim_memory_release opsConst chainGraph [1] [0, 1] [] 1 (Val.int 2) (by decide)
      (by decide) (by decide) (by decide),
   by decide⟩

/-- C9: with fail-fast disabled (the modelled behaviour), when one node is
deliberately configured to raise, every requested target that transitively
depends on it is reported failed with that node identified as the origin,
while every requested target independent of it still resolves and its
correct (eager) value is returned alongside. -/
theorem claim_failure_propagation_partial_success (ops : Nat → List V → Except String V)
    (g : Graph V) (targets order : List Nat) (b : Nat) (B : TaskNode V) (t : Nat)
    (hwf : wfb g = true) (hord : validSeq g order = true)
    (hcomp : ∀ i, i < g.length → i ∈ order)
    (hb : g[b]? = some B)
    (hfail : ∀ vs v, ops B.op vs ≠ .ok v)
    (hok : ∀ o, o ≠ B.op → ∀ vs, ∃ v, ops o vs = .ok v)
    (huniq : ∀ i, i < g.length → (nodeAt g i).op = B.op → i = b)
    (ht : t ∈ targets) (htl : t < g.length) :
    ((reach g t b = true ∨ t = b) → (runSched ops g targets order).failedAt t = some b) ∧
    (reach g t b = false → t ≠ b →
      ∃ v, (runSched ops g targets order).done t = some v ∧ denoteE ops g t = .ok v) := by
  have hw := (wfb_iff g).mp hwf
  have hsf := single_fail hw hb hfail hok huniq t htl
  constructor
  · intro hc
    rw [runSched_failedAt ops g targets order hw hord hcomp htl, hsf.1 hc]
    rfl
  · intro h1 h2
    rcases hsf.2 h1 h2 with ⟨v, hv⟩
    refine ⟨v, ?_, hv⟩
    rw [runSched_done_target ops g targets order hw hord hcomp ht htl, hv]
    rfl

/-- C9 witness: in Scenario C's graph, target 2 (downstream of the raising
node 1) is reported failed with origin 1; the independent sibling target 3
still resolves with its correct value. -/
theorem claim_failure_propagation_partial_success_witness :
    (runSched opsFail failGraph [2, 3] [0, 1, 2, 3]).failedAt 2 = some 1 ∧
    ∃ v, (runSched opsFail failGraph [2, 3] [0, 1, 2, 3]).done 3 = some v ∧
      denoteE opsFail failGraph 3 = .ok v :=
  ⟨(claim_failure_propagation_partial_success opsFail failGraph [2, 3] [0, 1, 2, 3] 1
      ⟨99, [Arg.ref 0]⟩ 2 (by decide) (by decide) (by decide) rfl
      (fun vs v h => by simp [opsFail] at h)
      (fun o ho vs => ⟨Val.int 7, by
        show (if o = 99 then Except.error "deliberate failure" else Except.ok (Val.int 7)) =
          Except.ok (Val.int 7)
        rw [if_neg ho]⟩)
      (by decide) (by decide) (by decide)).1 (Or.inl (by decide)),
   (claim_failure_propagation_partial_success opsFail failGraph [2, 3] [0, 1, 2, 3] 1
      ⟨99, [Arg.ref 0]⟩ 3 (by decide) (by decide) (by decide) rfl
      (fun vs v h => by simp [opsFail] at h)
      (fun o ho vs => ⟨Val.int 7, by
        show (if o = 99 then Except.error "deliberate failure" else Except.ok (Val.int 7)) =
          Except.ok (Val.int 7)
        rw [if_neg ho]⟩)
      (by decide) (by decide) (by decide)).2 (by decide) (by decide)⟩

/-- C10: summing the per-line word counts over a file's lines (the notebook's
streaming cell) equals the word count of the whole file read at once (the
naive cell), for any word-character class under which the newline is not a
word character — as with the notebook's `\w+`. -/
theorem claim_streaming_word_count (w : Char → Bool) (hw : w '\n' = false)
    (s : List Char) :
    ((splitLines s).map (countWords w)).sum = countWords w s := by
  have h := splitLinesAux_sum w hw s []
  simpa [splitLines] using h

/-- C10 witness: a three-line text under the `\w` word class (five words). -/
theorem claim_streaming_word_count_witness :
    ((splitLines ("one two\nthree, four!\nfive".toList)).map (countWords pyWordChar)).sum =
      countWords pyWordChar ("one two\nthree, four!\nfive".toList) ∧
    countWords pyWordChar ("one two\nthree, four!\nfive".toList) = 5 :=
  ⟨claim_streaming_word_count pyWordChar (by decide) ("one two\nthree, four!\nfive".toList),
   by decide⟩

end Claims

end LazyEngine
